import Mathlib

/-!
Verification of the compile-command ingestion layer of cquery
(`src/project.cc`): the path/flag classifier
(`GetCompilationEntryFromCompileCommandEntry`), the argument-guessing score
(`ComputeGuessScore`) and the inference engine
(`Project::FindCompilationEntryForFile`).

The C++ code is shallowly embedded: strings are Lean `String`s manipulated
through their underlying `List Char`, the mutable `ProjectConfig` accumulator
is threaded explicitly, the `assert` on empty path values is modelled by an
`Option` result (`none` = assertion failure), and the external path
normalization collaborator (`NormalizePath`) is an explicit function
parameter.  `testNormalize` is the deterministic test variant used when
`g_disable_normalize_path_for_test` is set (it prepends `&`).
-/

namespace Cquery

/-- String helper mirroring `StartsWith(value, start)` from utils: `s` starts
with the string `p`. -/
def strStartsWith (s p : String) : Bool :=
  p.data.isPrefixOf s.data

/-- String helper mirroring `EndsWith(value, ending)` from utils. -/
def strEndsWith (s p : String) : Bool :=
  p.data.isSuffixOf s.data

/-- Mirrors `StartsWithAny(arg, values)`: `arg` starts with one of `values`. -/
def startsWithAny (arg : String) (values : List String) : Bool :=
  values.any (fun p => strStartsWith arg p)

/-- Mirrors `AnyStartsWith(args, value)`: some element of `args` starts with
`value`. -/
def anyStartsWith (args : List String) (value : String) : Bool :=
  args.any (fun t => strStartsWith t value)

/-- The deterministic test variant of the path normalizer
(`NormalizePathWithTestOptOut` with `g_disable_normalize_path_for_test`):
prepend `&` so tests can see that a path went through normalization. -/
def testNormalize (path : String) : String :=
  "&" ++ path

/-- `kBlacklistMulti` from project.cc: flags that consume themselves and the
following argument. -/
def kBlacklistMulti : List String :=
  ["-MF", "-MT", "-MQ", "-o", "--serialize-diagnostics", "-Xclang"]

/-- `kBlacklist` from project.cc: flags that are always removed. -/
def kBlacklist : List String :=
  ["-c", "-MP", "-MD", "-MMD", "--fcolor-diagnostics"]

/-- `kPathArgs` from project.cc: flags followed by a potentially relative
path. -/
def kPathArgs : List String :=
  ["-I", "-iquote", "-isystem", "--sysroot=", "-isysroot", "-gcc-toolchain",
   "-include-pch", "-iframework", "-F", "-imacros", "-include"]

/-- `kNormalizePathArgs` from project.cc: arguments that always require an
absolute path, whose fused spelling is rewritten in the output. -/
def kNormalizePathArgs : List String :=
  ["--sysroot="]

/-- `kQuoteIncludeArgs` from project.cc. -/
def kQuoteIncludeArgs : List String :=
  ["-iquote"]

/-- `kAngleIncludeArgs` from project.cc. -/
def kAngleIncludeArgs : List String :=
  ["-I", "-isystem"]

/-- `ShouldAddToQuoteIncludes` from project.cc. -/
def shouldAddToQuoteIncludes (arg : String) : Bool :=
  startsWithAny arg kQuoteIncludeArgs

/-- `ShouldAddToAngleIncludes` from project.cc. -/
def shouldAddToAngleIncludes (arg : String) : Bool :=
  startsWithAny arg kAngleIncludeArgs

/-- `SourceFileType` from project.cc: the language spec inferred from the
file extension. -/
def SourceFileType (path : String) : Option String :=
  if strEndsWith path ".c" then some "c"
  else if strEndsWith path ".cpp" || strEndsWith path ".cc" then some "c++"
  else if strEndsWith path ".mm" then some "objective-c++"
  else if strEndsWith path ".m" then some "objective-c"
  else none

/-- One record of the compilation database (`CompileCommandsEntry`). -/
structure CompileCommandsEntry where
  directory : String
  file : String
  args : List String
deriving DecidableEq, Repr

/-- `Project::Entry`: one normalized compiler invocation. -/
structure Entry where
  filename : String
  args : List String
  is_inferred : Bool := false
deriving DecidableEq, Repr

/-- The shared accumulator `ProjectConfig`.  The C++ `unordered_set`s of
include directories are modelled as duplicate-free insertion lists. -/
structure ProjectConfig where
  quote_dirs : List String := []
  angle_dirs : List String := []
  extra_flags : List String := []
  project_dir : String := ""
  resource_dir : String := ""
deriving DecidableEq, Repr

/-- Set insertion for the `unordered_set` model: inserting an element that is
already present leaves the set unchanged. -/
def insertSet (l : List String) (x : String) : List String :=
  if x ∈ l then l else l ++ [x]

/-- The first loop of `ComputeGuessScore`: walk both strings from the start
while the characters match; the result is the stop index `i` (the score
contribution is 100 per step). -/
def frontLoop : List Char → List Char → Nat
  | x :: xs, y :: ys => if x = y then frontLoop xs ys + 1 else 0
  | _, _ => 0

/-- The second/third loop of `ComputeGuessScore` (`for j = i; ...`): count
the `/` characters from index `i` onward, i.e. in `l.drop i`. -/
def slashLoop (l : List Char) : Nat :=
  l.foldl (fun n c => if c = '/' then n + 1 else n) 0

/-- The final loop of `ComputeGuessScore`: compare `a[a.size - offset]` with
`b[b.size - offset]` for `offset = 1, 2, ...` while in bounds and matching.
The fuel argument bounds the iteration count (the loop runs at most
`min |a| |b|` times). -/
def backLoop (as bs : List Char) : Nat → Nat → Nat
  | _, 0 => 0
  | offset, fuel + 1 =>
    if offset ≤ as.length ∧ offset ≤ bs.length then
      if as.getD (as.length - offset) '\x00' = bs.getD (bs.length - offset) '\x00' then
        backLoop as bs (offset + 1) fuel + 1
      else 0
    else 0

/-- `ComputeGuessScore(a, b)` from project.cc, loop by loop:
+100 per matching leading character, −100 per `/` left in either string from
the stop index on, +1 per matching trailing character. -/
def computeGuessScore (a b : String) : Int :=
  let as := a.data
  let bs := b.data
  let i := frontLoop as bs
  let score : Int := 100 * i
  let score := score - 100 * slashLoop (as.drop i)
  let score := score - 100 * slashLoop (bs.drop i)
  score + backLoop as bs 1 (min as.length bs.length)

/-- Modelled from the spec's wording of the scoring function: `i` is the
length of the longest common leading match, each remaining `/` costs 100, and
the longest common trailing match adds 1 per character. -/
def specGuessScore (a b : String) : Int :=
  let as := a.data
  let bs := b.data
  let i := ((as.zip bs).takeWhile (fun p => p.1 = p.2)).length
  100 * (i : Int)
    - 100 * ((as.drop i).count '/' : Int)
    - 100 * ((bs.drop i).count '/' : Int)
    + (((as.reverse.zip bs.reverse).takeWhile (fun p => p.1 = p.2)).length : Int)

/-- `rfind('.')` on a string: the index of the last `.`, if any. -/
def rfindDot (s : String) : Option Nat :=
  (s.data.reverse.findIdx? (fun c => c = '.')).map (fun k => s.data.length - 1 - k)

/-- The condition of the wrapper-stripping loop of
`GetCompilationEntryFromCompileCommandEntry` (lines 118–128): keep skipping
while the token does not start with `-`, does not normalize to the main
source filename, and does not look like a source filename (a `.` in the last
4 bytes not followed by a digit). -/
def stripCond (normalize : String → String) (fname : String) (tok : String) : Bool :=
  if tok.data.getD 0 '\x00' = '-' then false
  else if normalize tok = fname then false
  else
    match rfindDot tok with
    | none => true
    | some dot =>
      if dot + 4 < tok.data.length then true
      else (tok.data.getD (dot + 1) '\x00').isDigit

/-- The stop index `i` of the wrapper-stripping loop. -/
def stripLen (normalize : String → String) (fname : String) (args : List String) : Nat :=
  (args.takeWhile (stripCond normalize fname)).length

/-- The compiler executable: `args[i-1]` when the strip loop advanced, the
back-compatibility placeholder `clang++` otherwise. -/
def execOf (normalize : String → String) (fname : String) (args : List String) : String :=
  ((args.takeWhile (stripCond normalize fname)).getLast?).getD "clang++"

/-- The `cleanup_maybe_relative_path` lambda: `assert(!path.empty())` is
modelled by returning `none`; an absolute path (or an empty working
directory) is normalized as is, a relative one is normalized against the
working directory. -/
def cleanup (normalize : String → String) (dir : String) (path : String) : Option String :=
  if path = "" then none
  else if path.data.getD 0 '\x00' = '/' ∨ dir = "" then some (normalize path)
  else some (normalize (dir ++ "/" ++ path))

/-- The inner `for (flag_type : kPathArgs)` loop: the first flag type that
matches `arg`, together with whether the match was exact (`{"-I", "foo"}`
style) or fused (`{"-Ifoo"}` style). -/
def matchPathFlag : List String → String → Option (String × Bool)
  | [], _ => none
  | ft :: rest, arg =>
    if arg = ft then some (ft, true)
    else if strStartsWith arg ft then some (ft, false)
    else matchPathFlag rest arg

/-- The loop state of the token-filtering loop: `skipNext` models the `++i`
of a multi-token blacklisted flag, the other three fields are the
`next_flag_is_path` / `add_next_flag_to_quote_dirs` /
`add_next_flag_to_angle_dirs` locals. -/
structure FilterState where
  skipNext : Bool := false
  nextIsPath : Bool := false
  addQuote : Bool := false
  addAngle : Bool := false
deriving DecidableEq, Repr

/-- The all-false initial filter state. -/
def initFS : FilterState := {}

/-- One iteration of the token-filtering loop of
`GetCompilationEntryFromCompileCommandEntry` (lines 168–223), acting on one
argument token.  Returns `none` when an `assert` on an empty path value
fires. -/
def filterStep (normalize : String → String) (dir : String) (st : FilterState) (acc : List String)
    (cfg : ProjectConfig) (arg : String) :
    Option (FilterState × List String × ProjectConfig) :=
  if st.skipNext then some ({ st with skipNext := false }, acc, cfg)
  else if !st.nextIsPath && startsWithAny arg kBlacklistMulti then
    some ({ st with skipNext := true }, acc, cfg)
  else if !st.nextIsPath && startsWithAny arg kBlacklist then
    some (st, acc, cfg)
  else if st.nextIsPath then
    match cleanup normalize dir arg with
    | none => none
    | some na =>
      let cfg := if st.addQuote then { cfg with quote_dirs := insertSet cfg.quote_dirs na } else cfg
      let cfg := if st.addAngle then { cfg with angle_dirs := insertSet cfg.angle_dirs na } else cfg
      some (⟨false, false, false, false⟩, acc ++ [arg], cfg)
  else
    match matchPathFlag kPathArgs arg with
    | some (_, true) =>
      some (⟨false, true, shouldAddToQuoteIncludes arg, shouldAddToAngleIncludes arg⟩,
        acc ++ [arg], cfg)
    | some (ft, false) =>
      match cleanup normalize dir ⟨arg.data.drop ft.data.length⟩ with
      | none => none
      | some p =>
        let arg' := if startsWithAny arg kNormalizePathArgs then ft ++ p else arg
        let cfg := if shouldAddToQuoteIncludes ft then { cfg with quote_dirs := insertSet cfg.quote_dirs p } else cfg
        let cfg := if shouldAddToAngleIncludes ft then { cfg with angle_dirs := insertSet cfg.angle_dirs p } else cfg
        some (st, acc ++ [arg'], cfg)
    | none => some (st, acc ++ [arg], cfg)

/-- The whole token-filtering loop: left-to-right over the remaining raw
arguments, threading state, output arguments and the shared accumulator. -/
def runFilter (normalize : String → String) (dir : String) :
    List String → FilterState → List String → ProjectConfig →
    Option (FilterState × List String × ProjectConfig)
  | [], st, acc, cfg => some (st, acc, cfg)
  | arg :: rest, st, acc, cfg =>
    match filterStep normalize dir st acc cfg arg with
    | none => none
    | some (st', acc', cfg') => runFilter normalize dir rest st' acc' cfg'

/-- Append one bookkeeping flag unless a flag with the given leading text is
already present (the three guarded appends at lines 231–242). -/
def appendUnlessPresent (args : List String) (guard tok : String) : List String :=
  if anyStartsWith args guard then args else args ++ [tok]

/-- `GetCompilationEntryFromCompileCommandEntry`: normalize the source
filename, strip wrapper tokens, keep the executable, inject working
directory / dialect / standard flags when absent in the raw arguments,
filter and rewrite the remaining tokens, append the user extra flags and
the guarded bookkeeping flags.  `none` models an assertion failure on an
empty path value. -/
def getCompilationEntry (normalize : String → String) (config : ProjectConfig)
    (entry : CompileCommandsEntry) : Option (Entry × ProjectConfig) :=
  let fname := normalize entry.file
  let i := stripLen normalize fname entry.args
  let args0 := [execOf normalize fname entry.args]
  let args0 :=
    if anyStartsWith entry.args "-working-directory" then args0
    else args0 ++ ["-working-directory", entry.directory]
  let args0 :=
    match SourceFileType entry.file with
    | none => args0
    | some t =>
      let args0 := if anyStartsWith entry.args "-x" then args0 else args0 ++ ["-x" ++ t]
      if anyStartsWith entry.args "-std=" then args0
      else if t = "c" then args0 ++ ["-std=gnu11"]
      else if t = "c++" then args0 ++ ["-std=c++14"]
      else args0
  match runFilter normalize entry.directory (entry.args.drop i) initFS args0 config with
  | none => none
  | some (_, acc, cfg) =>
    let acc := acc ++ cfg.extra_flags
    let acc := appendUnlessPresent acc "-resource-dir" ("-resource-dir=" ++ cfg.resource_dir)
    let acc := appendUnlessPresent acc "-Wno-unknown-warning-option" "-Wno-unknown-warning-option"
    let acc := appendUnlessPresent acc "-fparse-all-comments" "-fparse-all-comments"
    some ({ filename := fname, args := acc, is_inferred := false }, cfg)

/-- The project index: the ordered entry list (`Project::entries`). -/
structure Project where
  entries : List Entry
deriving DecidableEq, Repr

/-- Building `absolute_path_to_entry_index_`: each entry maps its filename to
its position, a later entry overwriting an earlier one with the same
filename. -/
def lookupIndexAux (q : String) : List Entry → Nat → Option Nat → Option Nat
  | [], _, acc => acc
  | e :: rest, i, acc =>
    lookupIndexAux q rest (i + 1) (if e.filename = q then some i else acc)

/-- Exact lookup in `absolute_path_to_entry_index_`. -/
def lookupIndex (entries : List Entry) (q : String) : Option Nat :=
  lookupIndexAux q entries 0 none

/-- `std::numeric_limits<int>::min()` for 32-bit `int`. -/
def intMin : Int := -(2 ^ 31)

/-- One step of the inference loop of `Project::FindCompilationEntryForFile`:
replace the current best only on a strictly greater score. -/
def guessStep (q : String) (acc : Option Entry × Int) (e : Entry) : Option Entry × Int :=
  if acc.2 < computeGuessScore q e.filename then (some e, computeGuessScore q e.filename)
  else acc

/-- The inference loop: fold `guessStep` over the index, starting from
`best_entry = nullptr`, `best_score = INT_MIN`. -/
def guessBestPair (q : String) (entries : List Entry) : Option Entry × Int :=
  entries.foldl (guessStep q) (none, intMin)

/-- `Project::FindCompilationEntryForFile`: exact lookup, else synthesize an
inferred entry whose args come from the best-scoring known entry (empty args
when there is no winner). -/
def findCompilationEntryForFile (p : Project) (q : String) : Entry :=
  match lookupIndex p.entries q with
  | some i => p.entries.getD i { filename := "", args := [], is_inferred := false }
  | none =>
    match (guessBestPair q p.entries).1 with
    | some best => { filename := q, args := best.args, is_inferred := true }
    | none => { filename := q, args := [], is_inferred := true }

/-- Modelled from the spec: the maximum similarity score over the index,
starting from the sentinel `s`. -/
def maxScoreFrom (q : String) (entries : List Entry) (s : Int) : Int :=
  entries.foldl (fun m e => max m (computeGuessScore q e.filename)) s

/-- Modelled from the spec: the earliest entry in index order attaining the
maximum similarity score. -/
def firstBest (q : String) (entries : List Entry) : Option Entry :=
  entries.find? (fun e => computeGuessScore q e.filename = maxScoreFrom q entries intMin)

/-- The two-entry index of the `Entry inference` test. -/
def inferPA : Project :=
  ⟨[{ filename := "/a/b/c/d/bar.cc", args := ["x1"] },
    { filename := "/a/b/c/baz.cc", args := ["x2"] }]⟩

/-- A token is inert for the filter loop: non-empty, matching no blacklist
entry and no path flag.  Such a token is pushed to the output verbatim in
every state. -/
def passTok (t : String) : Bool :=
  decide (t ≠ "") && !(startsWithAny t kBlacklistMulti) && !(startsWithAny t kBlacklist)
    && (matchPathFlag kPathArgs t).isNone

/-- The precondition of C9 as a predicate on the raw argument list: every
token that immediately follows an exact path-bearing flag is non-empty. -/
def okPathVals : List String → Bool
  | f :: v :: rest => (!(decide (f ∈ kPathArgs)) || !(decide (v = ""))) && okPathVals (v :: rest)
  | _ => true

/-- The tokens injected by steps 2–3 of the classifier (working-directory
pair, dialect flag, default standard flag), gathered as one list. -/
def injTokens (args : List String) (dir file : String) : List String :=
  (if anyStartsWith args "-working-directory" then [] else ["-working-directory", dir]) ++
  (match SourceFileType file with
   | none => []
   | some t =>
     (if anyStartsWith args "-x" then [] else ["-x" ++ t]) ++
     (if anyStartsWith args "-std=" then []
      else if t = "c" then ["-std=gnu11"]
      else if t = "c++" then ["-std=c++14"]
      else []))

/-- A sample path normalizer for instantiating the idempotence theorem: it
returns its input unchanged when already absolute and prefixes a slash
otherwise, so its outputs always start with a slash and it is idempotent. -/
def slashNorm (p : String) : String :=
  if p.data.getD 0 '\x00' = '/' then p else "/" ++ p

end Cquery

namespace Cquery

theorem frontLoop_eq_zip_takeWhile (as bs : List Char) :
    frontLoop as bs = ((as.zip bs).takeWhile (fun p => p.1 = p.2)).length := by
  induction as generalizing bs with
  | nil => cases bs <;> simp [frontLoop]
  | cons x xs ih =>
    cases bs with
    | nil => simp [frontLoop]
    | cons y ys =>
      rw [List.zip_cons_cons, List.takeWhile_cons]
      by_cases h : x = y
      · simp [frontLoop, h, ih]
      · simp [frontLoop, h]

theorem slashLoop_eq_count (l : List Char) :
    slashLoop l = l.count '/' := by
  have key : ∀ (l : List Char) (n : Nat),
      l.foldl (fun n c => if c = '/' then n + 1 else n) n = n + l.count '/' := by
    intro l
    induction l with
    | nil => intro n; simp
    | cons c cs ih =>
      intro n
      by_cases h : c = '/'
      · simp [h, ih, List.count_cons]
        omega
      · simp [h, ih, List.count_cons]
  simpa [slashLoop] using key l 0

theorem backLoop_eq_rev (as bs : List Char) :
    ∀ fuel offset, 1 ≤ offset → min as.length bs.length + 1 ≤ offset + fuel →
      backLoop as bs offset fuel =
        ((as.reverse.drop (offset - 1)).zip (bs.reverse.drop (offset - 1))
          |>.takeWhile (fun p => p.1 = p.2)).length := by
  intro fuel
  induction fuel with
  | zero =>
    intro offset h1 h2
    have : as.length < offset ∨ bs.length < offset := by omega
    rcases this with h | h
    · have : as.reverse.drop (offset - 1) = [] := by
        apply List.drop_eq_nil_of_le
        simp; omega
      simp [backLoop, this]
    · have : bs.reverse.drop (offset - 1) = [] := by
        apply List.drop_eq_nil_of_le
        simp; omega
      simp [backLoop, this]
  | succ fuel ih =>
    intro offset h1 h2
    by_cases hin : offset ≤ as.length ∧ offset ≤ bs.length
    · have ha : offset - 1 < as.reverse.length := by simp; omega
      have hb : offset - 1 < bs.reverse.length := by simp; omega
      have hga : as.reverse.drop (offset - 1) =
          as.reverse.get ⟨offset - 1, ha⟩ :: as.reverse.drop offset := by
        have := List.drop_eq_get_cons (l := as.reverse) ha
        simpa [Nat.sub_add_cancel h1] using this
      have hgb : bs.reverse.drop (offset - 1) =
          bs.reverse.get ⟨offset - 1, hb⟩ :: bs.reverse.drop offset := by
        have := List.drop_eq_get_cons (l := bs.reverse) hb
        simpa [Nat.sub_add_cancel h1] using this
      have hra : as.reverse.get ⟨offset - 1, ha⟩ = as.getD (as.length - offset) '\x00' := by
        have h' : as.length - 1 - (offset - 1) < as.length := by omega
        rw [List.getD_eq_get _ _ (by omega : as.length - offset < as.length)]
        rw [List.get_reverse' as ⟨offset - 1, ha⟩ (by simpa using h')]
        congr 1
        simp
        omega
      have hrb : bs.reverse.get ⟨offset - 1, hb⟩ = bs.getD (bs.length - offset) '\x00' := by
        have h' : bs.length - 1 - (offset - 1) < bs.length := by omega
        rw [List.getD_eq_get _ _ (by omega : bs.length - offset < bs.length)]
        rw [List.get_reverse' bs ⟨offset - 1, hb⟩ (by simpa using h')]
        congr 1
        simp
        omega
      by_cases heq : as.getD (as.length - offset) '\x00' = bs.getD (bs.length - offset) '\x00'
      · show (if offset ≤ as.length ∧ offset ≤ bs.length then
            if as.getD (as.length - offset) '\x00' = bs.getD (bs.length - offset) '\x00' then
              backLoop as bs (offset + 1) fuel + 1
            else 0
          else 0) = _
        rw [if_pos hin, if_pos heq]
        rw [ih (offset + 1) (by omega) (by omega)]
        rw [hga, hgb, List.zip_cons_cons, List.takeWhile_cons, hra, hrb]
        simp only [heq, decide_True, if_true, List.length_cons, Nat.add_sub_cancel]
      · show (if offset ≤ as.length ∧ offset ≤ bs.length then
            if as.getD (as.length - offset) '\x00' = bs.getD (bs.length - offset) '\x00' then
              backLoop as bs (offset + 1) fuel + 1
            else 0
          else 0) = _
        rw [if_pos hin, if_neg heq]
        rw [hga, hgb, List.zip_cons_cons, List.takeWhile_cons, hra, hrb]
        simp only [decide_eq_true_eq]
        rw [if_neg heq]
        simp
    · show (if offset ≤ as.length ∧ offset ≤ bs.length then
          if as.getD (as.length - offset) '\x00' = bs.getD (bs.length - offset) '\x00' then
            backLoop as bs (offset + 1) fuel + 1
          else 0
        else 0) = _
      rw [if_neg hin]
      push_neg at hin
      rcases Nat.lt_or_ge as.length offset with h | h
      · have hd : as.reverse.drop (offset - 1) = [] := by
          apply List.drop_eq_nil_of_le
          simp; omega
        simp [hd]
      · have h' := hin h
        have hd : bs.reverse.drop (offset - 1) = [] := by
          apply List.drop_eq_nil_of_le
          simp; omega
        simp [hd]

/-- C1: for every pair of strings, `ComputeGuessScore` equals 100 times the
longest common leading match, minus 100 per `/` in either string at or after
the stop index, plus 1 per character of the longest common trailing match,
with no floor. -/
theorem computeGuessScore_eq_spec (a b : String) :
    computeGuessScore a b = specGuessScore a b := by
  unfold computeGuessScore specGuessScore
  have h1 := frontLoop_eq_zip_takeWhile a.data b.data
  have h2 := backLoop_eq_rev a.data b.data (min a.data.length b.data.length) 1
    (le_refl 1) (by omega)
  simp only [h1, h2, slashLoop_eq_count]
  simp

end Cquery

namespace Cquery

/-- C2: with exactly the entries `/a/b/c/d/bar.cc` (args `x1`) and
`/a/b/c/baz.cc` (args `x2`), looking up `/a/b/c/d/new.cc` infers args `x1`,
and both `/a/b/c/new.cc` and `/a/b/c/new/new.cc` infer args `x2`. -/
theorem inference_directory_proximity :
    (findCompilationEntryForFile inferPA "/a/b/c/d/new.cc").args = ["x1"] ∧
    (findCompilationEntryForFile inferPA "/a/b/c/new.cc").args = ["x2"] ∧
    (findCompilationEntryForFile inferPA "/a/b/c/new/new.cc").args = ["x2"] := by
  decide

theorem computeGuessScore_lower (a b : String) :
    -(100 * ((a.data.length : Int) + (b.data.length : Int))) ≤ computeGuessScore a b := by
  unfold computeGuessScore
  have hA : slashLoop (a.data.drop (frontLoop a.data b.data)) ≤ a.data.length := by
    rw [slashLoop_eq_count]
    exact le_trans (List.count_le_length _ _) (by rw [List.length_drop]; omega)
  have hB : slashLoop (b.data.drop (frontLoop a.data b.data)) ≤ b.data.length := by
    rw [slashLoop_eq_count]
    exact le_trans (List.count_le_length _ _) (by rw [List.length_drop]; omega)
  simp only []
  omega

theorem lookupIndexAux_none (q : String) :
    ∀ (l : List Entry) (i : Nat), (∀ e ∈ l, e.filename ≠ q) →
      lookupIndexAux q l i none = none := by
  intro l
  induction l with
  | nil => intro i _; rfl
  | cons e t ih =>
    intro i h
    have he : e.filename ≠ q := h e (by simp)
    simp only [lookupIndexAux, if_neg he]
    exact ih (i + 1) (fun e' he' => h e' (by simp [he']))

theorem lookupIndex_none (entries : List Entry) (q : String)
    (habs : ∀ e ∈ entries, e.filename ≠ q) :
    lookupIndex entries q = none :=
  lookupIndexAux_none q entries 0 habs

theorem maxScoreFrom_cons (q : String) (e : Entry) (t : List Entry) (s : Int) :
    maxScoreFrom q (e :: t) s = maxScoreFrom q t (max s (computeGuessScore q e.filename)) :=
  rfl

theorem init_le_maxScoreFrom (q : String) :
    ∀ (l : List Entry) (s : Int), s ≤ maxScoreFrom q l s := by
  intro l
  induction l with
  | nil => intro s; exact le_refl s
  | cons e t ih =>
    intro s
    rw [maxScoreFrom_cons]
    exact le_trans (le_max_left _ _) (ih _)

theorem score_le_maxScoreFrom (q : String) :
    ∀ (l : List Entry) (s : Int) (e : Entry), e ∈ l →
      computeGuessScore q e.filename ≤ maxScoreFrom q l s := by
  intro l
  induction l with
  | nil => intro s e he; simp at he
  | cons e' t ih =>
    intro s e he
    rw [maxScoreFrom_cons]
    rcases List.mem_cons.mp he with h | h
    · subst h
      exact le_trans (le_max_right _ _) (init_le_maxScoreFrom q t _)
    · exact ih _ e h

theorem maxScoreFrom_all_le (q : String) :
    ∀ (l : List Entry) (s : Int), (∀ e ∈ l, computeGuessScore q e.filename ≤ s) →
      maxScoreFrom q l s = s := by
  intro l
  induction l with
  | nil => intro s _; rfl
  | cons e t ih =>
    intro s h
    rw [maxScoreFrom_cons, max_eq_left (h e (by simp))]
    exact ih s (fun e' he' => h e' (by simp [he']))

theorem maxScoreFrom_attained (q : String) :
    ∀ (l : List Entry) (s : Int), s < maxScoreFrom q l s →
      ∃ e ∈ l, computeGuessScore q e.filename = maxScoreFrom q l s := by
  intro l
  induction l with
  | nil => intro s h; exact absurd h (lt_irrefl s)
  | cons e t ih =>
    intro s h
    rw [maxScoreFrom_cons] at h ⊢
    by_cases h2 : maxScoreFrom q t (max s (computeGuessScore q e.filename)) ≤
        max s (computeGuessScore q e.filename)
    · have heq : maxScoreFrom q t (max s (computeGuessScore q e.filename)) =
          max s (computeGuessScore q e.filename) :=
        le_antisymm h2 (init_le_maxScoreFrom q t _)
      refine ⟨e, by simp, ?_⟩
      rw [heq]
      rcases max_cases s (computeGuessScore q e.filename) with ⟨hm, _⟩ | ⟨hm, _⟩
      · rw [heq, hm] at h; exact absurd h (lt_irrefl s)
      · omega
    · push_neg at h2
      obtain ⟨e', he', hsc⟩ := ih (max s (computeGuessScore q e.filename)) h2
      exact ⟨e', by simp [he'], hsc⟩

theorem guessFold_snd (q : String) :
    ∀ (l : List Entry) (b : Option Entry) (s : Int),
      (l.foldl (guessStep q) (b, s)).2 = maxScoreFrom q l s := by
  intro l
  induction l with
  | nil => intro b s; rfl
  | cons e t ih =>
    intro b s
    rw [List.foldl_cons, maxScoreFrom_cons]
    by_cases h : s < computeGuessScore q e.filename
    · simp only [guessStep, if_pos h]
      rw [ih, max_eq_right h.le]
    · simp only [guessStep, if_neg h]
      rw [ih, max_eq_left (not_lt.mp h)]

theorem guessFold_no_update (q : String) :
    ∀ (l : List Entry) (b : Option Entry) (s : Int),
      (∀ e ∈ l, computeGuessScore q e.filename ≤ s) →
      l.foldl (guessStep q) (b, s) = (b, s) := by
  intro l
  induction l with
  | nil => intro b s _; rfl
  | cons e t ih =>
    intro b s h
    rw [List.foldl_cons]
    have he : ¬ s < computeGuessScore q e.filename := not_lt.mpr (h e (by simp))
    simp only [guessStep, if_neg he]
    exact ih b s (fun e' he' => h e' (by simp [he']))

theorem guessFold_find (q : String) :
    ∀ (l : List Entry) (b : Option Entry) (s : Int),
      (∃ e ∈ l, s < computeGuessScore q e.filename) →
      (l.foldl (guessStep q) (b, s)).1 =
        l.find? (fun e => computeGuessScore q e.filename = maxScoreFrom q l s) := by
  intro l
  induction l with
  | nil => intro b s h; simp at h
  | cons e t ih =>
    intro b s hex
    rw [List.foldl_cons]
    by_cases h : s < computeGuessScore q e.filename
    · simp only [guessStep, if_pos h]
      by_cases h2 : ∃ e' ∈ t, computeGuessScore q e.filename < computeGuessScore q e'.filename
      · obtain ⟨e', he', hlt⟩ := h2
        have hM : maxScoreFrom q (e :: t) s =
            maxScoreFrom q t (computeGuessScore q e.filename) := by
          rw [maxScoreFrom_cons, max_eq_right h.le]
        have hne : computeGuessScore q e.filename ≠ maxScoreFrom q (e :: t) s := by
          rw [hM]
          have := score_le_maxScoreFrom q t (computeGuessScore q e.filename) e' he'
          omega
        rw [List.find?_cons_of_neg _ (by simpa using hne)]
        rw [ih (some e) (computeGuessScore q e.filename) ⟨e', he', hlt⟩, hM]
      · push_neg at h2
        rw [guessFold_no_update q t (some e) (computeGuessScore q e.filename) h2]
        have hM : maxScoreFrom q (e :: t) s = computeGuessScore q e.filename := by
          rw [maxScoreFrom_cons, max_eq_right h.le]
          exact maxScoreFrom_all_le q t _ h2
        rw [List.find?_cons_of_pos _ (by simpa using hM.symm)]
    · simp only [guessStep, if_neg h]
      have hsc : computeGuessScore q e.filename ≤ s := not_lt.mp h
      have hex' : ∃ e' ∈ t, s < computeGuessScore q e'.filename := by
        obtain ⟨e0, he0, hlt0⟩ := hex
        rcases List.mem_cons.mp he0 with h0 | h0
        · subst h0; omega
        · exact ⟨e0, h0, hlt0⟩
      have hM : maxScoreFrom q (e :: t) s = maxScoreFrom q t s := by
        rw [maxScoreFrom_cons, max_eq_left hsc]
      have hne : computeGuessScore q e.filename ≠ maxScoreFrom q (e :: t) s := by
        obtain ⟨e0, he0, hlt0⟩ := hex'
        have := score_le_maxScoreFrom q t s e0 he0
        rw [hM]
        omega
      rw [List.find?_cons_of_neg _ (by simpa using hne)]
      rw [ih b s hex', hM]

/-- C3: when the exact lookup misses on a non-empty index (and, the scores
being C `int`s, all strings are short enough that every score exceeds
`INT_MIN`), inference returns the entry with the maximum similarity score,
the earliest one in index order on ties. -/
theorem inference_first_max (q : String) (entries : List Entry)
    (hne : entries ≠ [])
    (habs : ∀ e ∈ entries, e.filename ≠ q)
    (hlen : ∀ e ∈ entries,
      100 * ((q.data.length : Int) + (e.filename.data.length : Int)) < 2 ^ 31) :
    ∃ best, firstBest q entries = some best ∧
      (∀ e ∈ entries, computeGuessScore q e.filename ≤ computeGuessScore q best.filename) ∧
      findCompilationEntryForFile ⟨entries⟩ q =
        { filename := q, args := best.args, is_inferred := true } := by
  have hbound : ∀ e ∈ entries, intMin < computeGuessScore q e.filename := by
    intro e he
    have h1 := computeGuessScore_lower q e.filename
    have h2 := hlen e he
    unfold intMin
    omega
  have hex : ∃ e ∈ entries, intMin < computeGuessScore q e.filename := by
    cases entries with
    | nil => exact absurd rfl hne
    | cons e t => exact ⟨e, by simp, hbound e (by simp)⟩
  have hfind := guessFold_find q entries none intMin hex
  have hsome : (entries.find?
      (fun e => computeGuessScore q e.filename = maxScoreFrom q entries intMin)).isSome := by
    rw [List.find?_isSome]
    obtain ⟨e0, he0, hlt0⟩ := hex
    have hM : intMin < maxScoreFrom q entries intMin :=
      lt_of_lt_of_le hlt0 (score_le_maxScoreFrom q entries intMin e0 he0)
    obtain ⟨e1, he1, hsc1⟩ := maxScoreFrom_attained q entries intMin hM
    exact ⟨e1, he1, by simpa using hsc1⟩
  obtain ⟨best, hbest⟩ := Option.isSome_iff_exists.mp hsome
  refine ⟨best, hbest, ?_, ?_⟩
  · intro e he
    have hp := List.find?_some hbest
    have hb2 : computeGuessScore q best.filename = maxScoreFrom q entries intMin := by
      simpa using hp
    rw [hb2]
    exact score_le_maxScoreFrom q entries intMin e he
  · unfold findCompilationEntryForFile
    rw [lookupIndex_none entries q habs]
    have : (guessBestPair q entries).1 = some best := by
      unfold guessBestPair
      rw [hfind]
      exact hbest
    rw [this]

/-- Witness for C3 at the concrete two-entry index and the query
`/a/b/c/d/new.cc`. -/
theorem inference_first_max_witness :
    ∃ best, firstBest "/a/b/c/d/new.cc" inferPA.entries = some best ∧
      (∀ e ∈ inferPA.entries, computeGuessScore "/a/b/c/d/new.cc" e.filename ≤
        computeGuessScore "/a/b/c/d/new.cc" best.filename) ∧
      findCompilationEntryForFile ⟨inferPA.entries⟩ "/a/b/c/d/new.cc" =
        { filename := "/a/b/c/d/new.cc", args := best.args, is_inferred := true } :=
  inference_first_max "/a/b/c/d/new.cc" inferPA.entries (by decide) (by decide) (by decide)

/-- C4: on an exact-lookup miss the answer is marked `is_inferred`, carries
the query as filename, and copies its args from the winning entry; on an
empty index there is no winning entry and the answer degenerates to empty
args (the code still returns this empty inferred entry rather than nothing —
the `no answer` of the spec is the absence of a winner). -/
theorem inferred_entry_shape (q : String) (entries : List Entry)
    (habs : ∀ e ∈ entries, e.filename ≠ q) :
    ((findCompilationEntryForFile ⟨entries⟩ q).is_inferred = true ∧
     (findCompilationEntryForFile ⟨entries⟩ q).filename = q ∧
     (∀ e, (guessBestPair q entries).1 = some e →
        (findCompilationEntryForFile ⟨entries⟩ q).args = e.args)) ∧
    (entries = [] → (guessBestPair q entries).1 = none ∧
      (findCompilationEntryForFile ⟨entries⟩ q).args = []) := by
  have hl := lookupIndex_none entries q habs
  unfold findCompilationEntryForFile
  rw [hl]
  constructor
  · refine ⟨?_, ?_, ?_⟩
    · cases hb : (guessBestPair q entries).1 <;> simp [hb]
    · cases hb : (guessBestPair q entries).1 <;> simp [hb]
    · intro e he
      rw [he]
  · intro hnil
    subst hnil
    constructor
    · rfl
    · rfl

/-- Witness for C4 at a concrete index and query. -/
theorem inferred_entry_shape_witness :
    ((findCompilationEntryForFile ⟨inferPA.entries⟩ "/a/b/c/other.cc").is_inferred = true ∧
     (findCompilationEntryForFile ⟨inferPA.entries⟩ "/a/b/c/other.cc").filename =
        "/a/b/c/other.cc" ∧
     (∀ e, (guessBestPair "/a/b/c/other.cc" inferPA.entries).1 = some e →
        (findCompilationEntryForFile ⟨inferPA.entries⟩ "/a/b/c/other.cc").args = e.args)) ∧
    (inferPA.entries = [] →
      (guessBestPair "/a/b/c/other.cc" inferPA.entries).1 = none ∧
      (findCompilationEntryForFile ⟨inferPA.entries⟩ "/a/b/c/other.cc").args = []) :=
  inferred_entry_shape "/a/b/c/other.cc" inferPA.entries (by decide)

end Cquery

namespace Cquery

theorem strData_append (a b : String) : (a ++ b).data = a.data ++ b.data := by
  cases a
  cases b
  rfl

theorem isPrefixOf_ne_get (p t : List Char) (n : Nat) (hc : n < p.length)
    (hne : p.get? n ≠ t.get? n) : p.isPrefixOf t = false := by
  by_contra h
  have hp : p <+: t := by
    rw [← List.isPrefixOf_iff_prefix]
    simpa using h
  obtain ⟨s, rfl⟩ := hp
  exact hne (by rw [List.get?_append hc])

theorem strStartsWith_false_of_get (t p : String) (n : Nat) (c d : Char)
    (hp : p.data.get? n = some c) (ht : t.data.get? n = some d) (hne : c ≠ d) :
    strStartsWith t p = false := by
  unfold strStartsWith
  apply isPrefixOf_ne_get _ _ n (List.get?_eq_some.mp hp).1
  rw [hp, ht]
  simp [hne]

theorem strStartsWith_false_of_front (t p : String) (c : Char)
    (hp : p.data.get? 0 = some c) (ht : t.data.getD 0 '\x00' ≠ c) :
    strStartsWith t p = false := by
  unfold strStartsWith
  apply isPrefixOf_ne_get _ _ 0 (List.get?_eq_some.mp hp).1
  rw [hp]
  cases hd : t.data with
  | nil => simp
  | cons x xs =>
    rw [hd] at ht
    simp only [List.getD_cons_zero] at ht
    simp only [List.get?_cons_zero, Option.some.injEq]
    exact fun h => ht (Option.some.inj h).symm

theorem get?_append_left_str (a b : String) (n : Nat) (h : n < a.data.length) :
    (a ++ b).data.get? n = a.data.get? n := by
  rw [strData_append]
  exact List.get?_append h

end Cquery

namespace Cquery

/-- C5: classifying the raw wrapper invocation `["buildproxy", "cc1"]` for a
C++ source file with an empty extra-flag accumulator yields exactly the
executable `cc1`, the working-directory pair, the injected dialect/standard
pair, and the three trailing bookkeeping flags, in that order. -/
theorem wrapper_stripping (normalize : String → String) (cfg : ProjectConfig)
    (dir file : String)
    (h1 : normalize "buildproxy" ≠ normalize file)
    (h2 : normalize "cc1" ≠ normalize file)
    (hcpp : SourceFileType file = some "c++")
    (hextra : cfg.extra_flags = [])
    (hdir : dir.data.getD 0 '\x00' ≠ '-') :
    getCompilationEntry normalize cfg ⟨dir, file, ["buildproxy", "cc1"]⟩ =
      some ({ filename := normalize file,
              args := ["cc1", "-working-directory", dir, "-xc++", "-std=c++14",
                       "-resource-dir=" ++ cfg.resource_dir,
                       "-Wno-unknown-warning-option", "-fparse-all-comments"],
              is_inferred := false }, cfg) := by
  have hs1 : stripCond normalize (normalize file) "buildproxy" = true := by
    unfold stripCond
    rw [if_neg (by decide), if_neg h1]
    decide
  have hs2 : stripCond normalize (normalize file) "cc1" = true := by
    unfold stripCond
    rw [if_neg (by decide), if_neg h2]
    decide
  have hstrip : stripLen normalize (normalize file) ["buildproxy", "cc1"] = 2 := by
    simp [stripLen, List.takeWhile_cons, hs1, hs2]
  have hexec : execOf normalize (normalize file) ["buildproxy", "cc1"] = "cc1" := by
    simp [execOf, List.takeWhile_cons, hs1, hs2]
  have hdir1 : strStartsWith dir "-resource-dir" = false :=
    strStartsWith_false_of_front dir "-resource-dir" '-' rfl hdir
  have hdir2 : strStartsWith dir "-Wno-unknown-warning-option" = false :=
    strStartsWith_false_of_front dir "-Wno-unknown-warning-option" '-' rfl hdir
  have hdir3 : strStartsWith dir "-fparse-all-comments" = false :=
    strStartsWith_false_of_front dir "-fparse-all-comments" '-' rfl hdir
  have hres2 : strStartsWith ("-resource-dir=" ++ cfg.resource_dir)
      "-Wno-unknown-warning-option" = false :=
    strStartsWith_false_of_get _ _ 1 'W' 'r' rfl
      (get?_append_left_str "-resource-dir=" cfg.resource_dir 1 (by decide)) (by decide)
  have hres3 : strStartsWith ("-resource-dir=" ++ cfg.resource_dir)
      "-fparse-all-comments" = false :=
    strStartsWith_false_of_get _ _ 1 'f' 'r' rfl
      (get?_append_left_str "-resource-dir=" cfg.resource_dir 1 (by decide)) (by decide)
  have ha1 : anyStartsWith ["buildproxy", "cc1"] "-working-directory" = false := by decide
  have ha2 : anyStartsWith ["buildproxy", "cc1"] "-x" = false := by decide
  have ha3 : anyStartsWith ["buildproxy", "cc1"] "-std=" = false := by decide
  have hA1 : anyStartsWith ["cc1", "-working-directory", dir, "-xc++", "-std=c++14"]
      "-resource-dir" = false := by
    simp only [anyStartsWith, List.any_cons, List.any_nil, hdir1]
    decide
  have hA2 : anyStartsWith ["cc1", "-working-directory", dir, "-xc++", "-std=c++14",
      "-resource-dir=" ++ cfg.resource_dir] "-Wno-unknown-warning-option" = false := by
    simp only [anyStartsWith, List.any_cons, List.any_nil, hdir2, hres2]
    decide
  have hA3 : anyStartsWith ["cc1", "-working-directory", dir, "-xc++", "-std=c++14",
      "-resource-dir=" ++ cfg.resource_dir, "-Wno-unknown-warning-option"]
      "-fparse-all-comments" = false := by
    simp only [anyStartsWith, List.any_cons, List.any_nil, hdir3, hres3]
    decide
  have hx : "-x" ++ "c++" = "-xc++" := rfl
  unfold getCompilationEntry
  simp only [hstrip, hexec, hcpp, hextra, ha1, ha2, ha3]
  simp only [Bool.false_eq_true, if_false, ↓reduceIte]
  simp [appendUnlessPresent, runFilter, initFS, hx, hA1, hA2, hA3, hextra]

/-- Witness for C5 with the deterministic test normalizer, the working
directory `/dir/` and the source file `file.cc`. -/
theorem wrapper_stripping_witness :
    (testNormalize "buildproxy" ≠ testNormalize "file.cc") ∧
    (SourceFileType "file.cc" = some "c++") ∧
    getCompilationEntry testNormalize { resource_dir := "/w/resource_dir/" }
        ⟨"/dir/", "file.cc", ["buildproxy", "cc1"]⟩ =
      some ({ filename := testNormalize "file.cc",
              args := ["cc1", "-working-directory", "/dir/", "-xc++", "-std=c++14",
                       "-resource-dir=" ++ "/w/resource_dir/",
                       "-Wno-unknown-warning-option", "-fparse-all-comments"],
              is_inferred := false }, { resource_dir := "/w/resource_dir/" }) :=
  ⟨by decide, by decide,
    wrapper_stripping testNormalize { resource_dir := "/w/resource_dir/" } "/dir/" "file.cc"
      (by decide) (by decide) (by decide) rfl (by decide)⟩

end Cquery

namespace Cquery

theorem filterStep_acc (normalize : String → String) (dir : String)
    (st : FilterState) (cfg : ProjectConfig) (arg : String) :
    ∀ acc', filterStep normalize dir st acc' cfg arg =
      (filterStep normalize dir st [] cfg arg).map (fun r => (r.1, acc' ++ r.2.1, r.2.2)) := by
  intro acc'
  unfold filterStep
  repeat' split
  all_goals simp_all

theorem runFilter_acc (normalize : String → String) (dir : String) :
    ∀ (l : List String) (st : FilterState) (acc : List String) (cfg : ProjectConfig),
      runFilter normalize dir l st acc cfg =
        (runFilter normalize dir l st [] cfg).map (fun r => (r.1, acc ++ r.2.1, r.2.2)) := by
  intro l
  induction l with
  | nil => intro st acc cfg; simp [runFilter]
  | cons arg rest ih =>
    intro st acc cfg
    simp only [runFilter]
    rw [filterStep_acc normalize dir st cfg arg acc]
    cases hs : filterStep normalize dir st [] cfg arg with
    | none => simp
    | some r =>
      obtain ⟨st', acc', cfg'⟩ := r
      simp only [Option.map_some']
      rw [ih st' (acc ++ acc') cfg', ih st' acc' cfg']
      cases hr : runFilter normalize dir rest st' [] cfg' with
      | none => simp
      | some r' => simp

theorem runFilter_append (normalize : String → String) (dir : String) :
    ∀ (xs ys : List String) (st : FilterState) (acc : List String) (cfg : ProjectConfig),
      runFilter normalize dir (xs ++ ys) st acc cfg =
        (runFilter normalize dir xs st acc cfg).bind
          (fun r => runFilter normalize dir ys r.1 r.2.1 r.2.2) := by
  intro xs
  induction xs with
  | nil => intro ys st acc cfg; simp [runFilter]
  | cons arg rest ih =>
    intro ys st acc cfg
    simp only [List.cons_append, runFilter]
    cases hs : filterStep normalize dir st acc cfg arg with
    | none => simp
    | some r => simp [ih]

end Cquery

namespace Cquery

theorem str_eq_of_data (a b : String) (h : a.data = b.data) : a = b := by
  cases a
  cases b
  simp only at h
  rw [h]

theorem cleanup_isSome (normalize : String → String) (dir path : String) (h : path ≠ "") :
    ∃ P, cleanup normalize dir path = some P := by
  unfold cleanup
  rw [if_neg h]
  by_cases h2 : path.data.getD 0 '\x00' = '/' ∨ dir = ""
  · rw [if_pos h2]; exact ⟨_, rfl⟩
  · rw [if_neg h2]; exact ⟨_, rfl⟩

theorem swAny_false_of_get (t : String) (L : List String) (n : Nat) (d : Char)
    (ht : t.data.get? n = some d)
    (h : L.all (fun p => ((p.data.get? n).map (fun c => !(decide (c = d)))).getD false) = true) :
    startsWithAny t L = false := by
  rw [startsWithAny, List.any_eq_false]
  intro p hp
  rw [List.all_eq_true] at h
  have hp2 := h p hp
  cases hc : p.data.get? n with
  | none => rw [hc] at hp2; simp at hp2
  | some c =>
    rw [hc] at hp2
    simp at hp2
    simp [strStartsWith_false_of_get t p n c d hc ht hp2]

/-- C7: the split spelling `["-I", "foo"]` and the fused spelling
`["-Ifoo"]` of an angle-style include flag insert the identical absolutized
path into the accumulator's `angle_dirs`, for every working directory and
every non-empty path value. -/
theorem split_fused_equiv (normalize : String → String) (cfg : ProjectConfig)
    (dir file foo : String) (hfoo : foo ≠ "") :
    ∃ P, cleanup normalize dir foo = some P ∧
      (getCompilationEntry normalize cfg ⟨dir, file, ["-I", foo]⟩).map
          (fun r => r.2.angle_dirs) = some (insertSet cfg.angle_dirs P) ∧
      (getCompilationEntry normalize cfg ⟨dir, file, ["-I" ++ foo]⟩).map
          (fun r => r.2.angle_dirs) = some (insertSet cfg.angle_dirs P) := by
  obtain ⟨P, hP⟩ := cleanup_isSome normalize dir foo hfoo
  have hfront : ("-I" ++ foo).data.getD 0 '\x00' = '-' := by
    rw [strData_append]; rfl
  have ht1 : ("-I" ++ foo).data.get? 1 = some 'I' :=
    get?_append_left_str "-I" foo 1 (by decide)
  have hswI : strStartsWith ("-I" ++ foo) "-I" = true := by
    unfold strStartsWith
    rw [strData_append]
    rw [List.isPrefixOf_iff_prefix]
    exact List.prefix_append _ _
  have hneI : ("-I" ++ foo) ≠ "-I" := by
    intro h
    apply hfoo
    have hd := congrArg String.data h
    rw [strData_append] at hd
    have : foo.data = [] := by simpa using hd
    exact str_eq_of_data foo "" (by simpa using this)
  have hb1 : startsWithAny ("-I" ++ foo) kBlacklistMulti = false :=
    swAny_false_of_get _ kBlacklistMulti 1 'I' ht1 (by decide)
  have hb2 : startsWithAny ("-I" ++ foo) kBlacklist = false :=
    swAny_false_of_get _ kBlacklist 1 'I' ht1 (by decide)
  have hNPA : startsWithAny ("-I" ++ foo) kNormalizePathArgs = false :=
    swAny_false_of_get _ kNormalizePathArgs 1 'I' ht1 (by decide)
  have hmf : matchPathFlag kPathArgs ("-I" ++ foo) = some ("-I", false) := by
    show matchPathFlag ("-I" :: ["-iquote", "-isystem", "--sysroot=", "-isysroot",
      "-gcc-toolchain", "-include-pch", "-iframework", "-F", "-imacros", "-include"])
      ("-I" ++ foo) = _
    rw [matchPathFlag]
    rw [if_neg hneI, if_pos hswI]
  have hdrop : (⟨("-I" ++ foo).data.drop ("-I" : String).data.length⟩ : String) = foo := by
    rw [strData_append]
    show (⟨(("-I" : String).data ++ foo.data).drop ("-I" : String).data.length⟩ : String) = foo
    rw [List.drop_left]
  have hsc : stripCond normalize (normalize file) "-I" = false := by
    unfold stripCond
    rw [if_pos (by decide)]
  have hscf : stripCond normalize (normalize file) ("-I" ++ foo) = false := by
    unfold stripCond
    rw [if_pos hfront]
  have hstrip : stripLen normalize (normalize file) ["-I", foo] = 0 := by
    simp [stripLen, List.takeWhile_cons, hsc]
  have hexec : execOf normalize (normalize file) ["-I", foo] = "clang++" := by
    simp [execOf, List.takeWhile_cons, hsc]
  have hstripf : stripLen normalize (normalize file) ["-I" ++ foo] = 0 := by
    simp [stripLen, List.takeWhile_cons, hscf]
  have hexecf : execOf normalize (normalize file) ["-I" ++ foo] = "clang++" := by
    simp [execOf, List.takeWhile_cons, hscf]
  have step1 : filterStep normalize dir initFS [] cfg "-I" =
      some (⟨false, true, false, true⟩, ["-I"], cfg) := by
    unfold filterStep
    rw [if_neg (by simp [initFS])]
    rw [if_neg (by simp [initFS]; decide)]
    rw [if_neg (by simp [initFS]; decide)]
    rw [if_neg (by simp [initFS])]
    rw [show matchPathFlag kPathArgs "-I" = some ("-I", true) from by decide]
    simp [shouldAddToQuoteIncludes, shouldAddToAngleIncludes]
    decide
  have step2 : ∀ cfg' : ProjectConfig,
      filterStep normalize dir ⟨false, true, false, true⟩ ["-I"] cfg' foo =
      some (⟨false, false, false, false⟩, ["-I", foo],
        { cfg' with angle_dirs := insertSet cfg'.angle_dirs P }) := by
    intro cfg'
    unfold filterStep
    rw [if_neg (by simp)]
    rw [if_neg (by simp)]
    rw [if_neg (by simp)]
    rw [if_pos (by simp)]
    simp only [hP]
    simp
  have hrun : runFilter normalize dir ["-I", foo] initFS [] cfg =
      some (⟨false, false, false, false⟩, ["-I", foo],
        { cfg with angle_dirs := insertSet cfg.angle_dirs P }) := by
    simp only [runFilter, step1, step2]
  have step1f : filterStep normalize dir initFS [] cfg ("-I" ++ foo) =
      some (initFS, ["-I" ++ foo],
        { cfg with angle_dirs := insertSet cfg.angle_dirs P }) := by
    unfold filterStep
    rw [if_neg (by simp [initFS])]
    rw [if_neg (by simp [initFS, hb1])]
    rw [if_neg (by simp [initFS, hb2])]
    rw [if_neg (by simp [initFS])]
    simp only [hmf]
    simp only [hdrop, hP]
    rw [if_neg (by simp [hNPA])]
    rw [show shouldAddToQuoteIncludes "-I" = false from by decide]
    rw [show shouldAddToAngleIncludes "-I" = true from by decide]
    simp [initFS]
  have hrunf : runFilter normalize dir ["-I" ++ foo] initFS [] cfg =
      some (initFS, ["-I" ++ foo],
        { cfg with angle_dirs := insertSet cfg.angle_dirs P }) := by
    simp only [runFilter, step1f]
  refine ⟨P, hP, ?_, ?_⟩
  · unfold getCompilationEntry
    simp only [hstrip, hexec, List.drop_zero]
    rw [runFilter_acc]
    rw [hrun]
    simp
  · unfold getCompilationEntry
    simp only [hstripf, hexecf, List.drop_zero]
    rw [runFilter_acc]
    rw [hrunf]
    simp


/-- Witness for C7 with the test normalizer, working directory `/base` and
path value `a_relative1`. -/
theorem split_fused_equiv_witness :
    ∃ P, cleanup testNormalize "/base" "a_relative1" = some P ∧
      (getCompilationEntry testNormalize {} ⟨"/base", "foo.cc", ["-I", "a_relative1"]⟩).map
          (fun r => r.2.angle_dirs) =
        some (insertSet (ProjectConfig.angle_dirs {}) P) ∧
      (getCompilationEntry testNormalize {} ⟨"/base", "foo.cc", ["-I" ++ "a_relative1"]⟩).map
          (fun r => r.2.angle_dirs) =
        some (insertSet (ProjectConfig.angle_dirs {}) P) :=
  split_fused_equiv testNormalize {} "/base" "foo.cc" "a_relative1" (by decide)

end Cquery

namespace Cquery

theorem okPathVals_tail (a : String) (rest : List String)
    (h : okPathVals (a :: rest) = true) : okPathVals rest = true := by
  cases rest with
  | nil => rfl
  | cons v rest' =>
    rw [okPathVals, Bool.and_eq_true] at h
    exact h.2

theorem okPathVals_drop (n : Nat) :
    ∀ (l : List String), okPathVals l = true → okPathVals (l.drop n) = true := by
  induction n with
  | zero => intro l h; simpa using h
  | succ n ih =>
    intro l h
    cases l with
    | nil => rfl
    | cons a t => exact ih t (okPathVals_tail a t h)

theorem matchPathFlag_exact (a ft : String) :
    ∀ (L : List String), matchPathFlag L a = some (ft, true) → a = ft ∧ ft ∈ L := by
  intro L
  induction L with
  | nil => intro h; simp [matchPathFlag] at h
  | cons x rest ih =>
    intro h
    rw [matchPathFlag] at h
    by_cases h1 : a = x
    · rw [if_pos h1] at h
      have := Option.some.inj h
      have hx : x = ft := congrArg Prod.fst this
      exact ⟨hx ▸ h1, by simp [hx]⟩
    · rw [if_neg h1] at h
      by_cases h2 : strStartsWith a x = true
      · rw [if_pos h2] at h
        have := Option.some.inj h
        have : (false : Bool) = true := congrArg Prod.snd this
        simp at this
      · rw [if_neg h2] at h
        have := ih h
        exact ⟨this.1, by simp [this.2]⟩

theorem matchPathFlag_fused (a ft : String) :
    ∀ (L : List String), matchPathFlag L a = some (ft, false) →
      strStartsWith a ft = true ∧ a ≠ ft := by
  intro L
  induction L with
  | nil => intro h; simp [matchPathFlag] at h
  | cons x rest ih =>
    intro h
    rw [matchPathFlag] at h
    by_cases h1 : a = x
    · rw [if_pos h1] at h
      have := Option.some.inj h
      have : (true : Bool) = false := congrArg Prod.snd this
      simp at this
    · rw [if_neg h1] at h
      by_cases h2 : strStartsWith a x = true
      · rw [if_pos h2] at h
        have := Option.some.inj h
        have hx : x = ft := congrArg Prod.fst this
        exact ⟨hx ▸ h2, hx ▸ h1⟩
      · rw [if_neg h2] at h
        exact ih h

theorem fused_path_ne_empty (a ft : String) (hsw : strStartsWith a ft = true)
    (hne : a ≠ ft) : (⟨a.data.drop ft.data.length⟩ : String) ≠ "" := by
  unfold strStartsWith at hsw
  have hp : ft.data <+: a.data := by
    rw [← List.isPrefixOf_iff_prefix]
    simpa using hsw
  obtain ⟨s, hs⟩ := hp
  intro hemp
  apply hne
  have hd : a.data.drop ft.data.length = s := by
    rw [← hs, List.drop_left]
  have hs0 : s = [] := by
    have := congrArg String.data hemp
    simp only at this
    rwa [hd] at this
  apply str_eq_of_data
  rw [← hs, hs0, List.append_nil]

theorem runFilter_isSome (normalize : String → String) (dir : String) :
    ∀ (l : List String) (st : FilterState) (acc : List String) (cfg : ProjectConfig),
      okPathVals l = true →
      (st.skipNext = true → st.nextIsPath = false) →
      (st.nextIsPath = true → ∀ v, l.head? = some v → v ≠ "") →
      ∃ r, runFilter normalize dir l st acc cfg = some r := by
  intro l
  induction l with
  | nil => intro st acc cfg _ _ _; exact ⟨_, rfl⟩
  | cons a rest ih =>
    intro st acc cfg hok hsk hhd
    rw [runFilter]
    unfold filterStep
    by_cases h1 : st.skipNext = true
    · rw [if_pos h1]
      exact ih _ _ _ (okPathVals_tail a rest hok) (by simp) (by simp [hsk h1])
    · rw [if_neg h1]
      by_cases h2 : (!st.nextIsPath && startsWithAny a kBlacklistMulti) = true
      · rw [if_pos h2]
        exact ih _ _ _ (okPathVals_tail a rest hok) (fun _ => by
          simp at h2
          simp [h2.1]) (by
          intro hnp
          simp at h2
          simp [h2.1] at hnp)
      · rw [if_neg h2]
        by_cases h3 : (!st.nextIsPath && startsWithAny a kBlacklist) = true
        · rw [if_pos h3]
          exact ih _ _ _ (okPathVals_tail a rest hok) hsk (by
            intro hnp
            simp at h3
            simp [h3.1] at hnp)
        · rw [if_neg h3]
          by_cases h4 : st.nextIsPath = true
          · rw [if_pos h4]
            have ha : a ≠ "" := hhd h4 a rfl
            obtain ⟨P, hP⟩ := cleanup_isSome normalize dir a ha
            rw [hP]
            exact ih _ _ _ (okPathVals_tail a rest hok) (by simp) (by simp)
          · rw [if_neg h4]
            rcases hm : matchPathFlag kPathArgs a with _ | ⟨ft, b⟩
            · exact ih _ _ _ (okPathVals_tail a rest hok) hsk
                (fun hnp => absurd hnp h4)
            · cases b
              · obtain ⟨hsw, hne⟩ := matchPathFlag_fused a ft kPathArgs hm
                obtain ⟨P, hP⟩ := cleanup_isSome normalize dir _ (fused_path_ne_empty a ft hsw hne)
                simp only [hP]
                exact ih _ _ _ (okPathVals_tail a rest hok) hsk (by
                  intro hnp
                  exact absurd hnp (by simpa using h4))
              · obtain ⟨hae, hmem⟩ := matchPathFlag_exact a ft kPathArgs hm
                refine ih _ _ _ (okPathVals_tail a rest hok) (by simp) ?_
                intro _ v hv hveq
                cases rest with
                | nil => simp at hv
                | cons v' rest' =>
                  simp at hv
                  subst hv
                  rw [okPathVals, Bool.and_eq_true] at hok
                  have := hok.1
                  rw [Bool.or_eq_true] at this
                  rcases this with h | h
                  · simp at h
                    exact h (hae ▸ hmem)
                  · simp at h
                    exact h hveq

/-- C9: an empty path value right after a recognized exact path-bearing flag
fires the defensive assertion (the classifier fails fast, modelled as
`none`), and under the precondition that every token following an exact path
flag is non-empty, the assertion-failure branch is unreachable: the
classifier always returns an entry. -/
theorem empty_path_value_fatal (normalize : String → String) (cfg : ProjectConfig)
    (entry : CompileCommandsEntry) (hok : okPathVals entry.args = true) :
    (getCompilationEntry testNormalize {} ⟨"/d", "f.cc", ["cc", "-I", ""]⟩ = none) ∧
    ∃ r, getCompilationEntry normalize cfg entry = some r := by
  constructor
  · decide
  · have hsome : ∀ acc, ∃ r, runFilter normalize entry.directory
        (entry.args.drop (stripLen normalize (normalize entry.file) entry.args))
        initFS acc cfg = some r :=
      fun acc => runFilter_isSome normalize entry.directory _ initFS acc cfg
        (okPathVals_drop _ _ hok) (by simp [initFS]) (by simp [initFS])
    unfold getCompilationEntry
    dsimp only
    repeat' split
    all_goals
      first
        | exact ⟨_, rfl⟩
        | (rename_i hnone
           obtain ⟨r, hr⟩ := hsome _
           rw [hnone] at hr
           simp at hr)

/-- Witness for C9: the precondition holds for `["cc", "-I", "x"]` and the
classifier succeeds there, while `["cc", "-I", ""]` trips the assertion. -/
theorem empty_path_value_fatal_witness :
    okPathVals ["cc", "-I", "x"] = true ∧
    ((getCompilationEntry testNormalize {} ⟨"/d", "f.cc", ["cc", "-I", ""]⟩ = none) ∧
     ∃ r, getCompilationEntry testNormalize {} ⟨"/d", "f.cc", ["cc", "-I", "x"]⟩ = some r) :=
  ⟨by decide,
    empty_path_value_fatal testNormalize {} ⟨"/d", "f.cc", ["cc", "-I", "x"]⟩ (by decide)⟩

end Cquery

namespace Cquery

theorem strStartsWith_refl (s : String) : strStartsWith s s = true := by
  rw [strStartsWith, List.isPrefixOf_iff_prefix]

theorem startsWithAny_of_mem (f : String) (L : List String) (h : f ∈ L) :
    startsWithAny f L = true := by
  rw [startsWithAny, List.any_eq_true]
  exact ⟨f, h, strStartsWith_refl f⟩

theorem anyStartsWith_append (l₁ l₂ : List String) (g : String) :
    anyStartsWith (l₁ ++ l₂) g = (anyStartsWith l₁ g || anyStartsWith l₂ g) := by
  simp [anyStartsWith]

theorem anyStartsWith_cons (a : String) (l : List String) (g : String) :
    anyStartsWith (a :: l) g = (strStartsWith a g || anyStartsWith l g) := by
  simp [anyStartsWith]

theorem takeWhile_append_lt (p : String → Bool) :
    ∀ (pre rest : List String), (pre.takeWhile p).length < pre.length →
      (pre ++ rest).takeWhile p = pre.takeWhile p := by
  intro pre
  induction pre with
  | nil => intro rest h; simp at h
  | cons a t ih =>
    intro rest h
    by_cases hp : p a = true
    · rw [List.takeWhile_cons, if_pos hp] at h ⊢
      rw [List.cons_append, List.takeWhile_cons, if_pos hp]
      rw [ih rest (by simpa using Nat.lt_of_succ_lt_succ h)]
    · rw [List.takeWhile_cons, if_neg hp] at h ⊢
      rw [List.cons_append, List.takeWhile_cons, if_neg hp]

theorem stripLen_append (normalize : String → String) (fname : String)
    (pre rest : List String) (h : stripLen normalize fname pre < pre.length) :
    stripLen normalize fname (pre ++ rest) = stripLen normalize fname pre := by
  unfold stripLen at h ⊢
  rw [takeWhile_append_lt _ pre rest h]

theorem execOf_append (normalize : String → String) (fname : String)
    (pre rest : List String) (h : stripLen normalize fname pre < pre.length) :
    execOf normalize fname (pre ++ rest) = execOf normalize fname pre := by
  unfold stripLen at h
  unfold execOf
  rw [takeWhile_append_lt _ pre rest h]

/-- Shared core for C8/C10: a token starting with a multi-token blacklisted
flag, together with the token after it, contributes nothing to the output:
classifying `pre ++ [f, v] ++ post` equals classifying `pre ++ post`, when
the pair sits beyond the stripped wrapper prefix, the filter is in a neutral
state when it reaches `f`, and neither dropped token affects the
working-directory/dialect/standard injection guards. -/
theorem multi_blacklist_pair_dropped (normalize : String → String) (cfg : ProjectConfig)
    (dir file : String) (pre post : List String) (f v : String)
    (hf : startsWithAny f kBlacklistMulti = true)
    (hstrip : stripLen normalize (normalize file) pre < pre.length)
    (hclean : (runFilter normalize dir
        (pre.drop (stripLen normalize (normalize file) pre)) initFS [] cfg).all
        (fun r => !r.1.skipNext && !r.1.nextIsPath) = true)
    (hg : ∀ g ∈ ["-working-directory", "-x", "-std="],
        strStartsWith f g = false ∧ strStartsWith v g = false) :
    getCompilationEntry normalize cfg ⟨dir, file, pre ++ f :: v :: post⟩ =
      getCompilationEntry normalize cfg ⟨dir, file, pre ++ post⟩ := by
  have hle : stripLen normalize (normalize file) pre ≤ pre.length := le_of_lt hstrip
  have hs1 := stripLen_append normalize (normalize file) pre (f :: v :: post) hstrip
  have hs2 := stripLen_append normalize (normalize file) pre post hstrip
  have he1 := execOf_append normalize (normalize file) pre (f :: v :: post) hstrip
  have he2 := execOf_append normalize (normalize file) pre post hstrip
  have hany : ∀ g ∈ ["-working-directory", "-x", "-std="],
      anyStartsWith (pre ++ f :: v :: post) g = anyStartsWith (pre ++ post) g := by
    intro g hgm
    obtain ⟨hfg, hvg⟩ := hg g hgm
    rw [anyStartsWith_append, anyStartsWith_cons, anyStartsWith_cons,
      anyStartsWith_append, hfg, hvg]
    simp
  have hd1 : (pre ++ f :: v :: post).drop (stripLen normalize (normalize file) pre) =
      pre.drop (stripLen normalize (normalize file) pre) ++ f :: v :: post :=
    List.drop_append_of_le_length hle
  have hd2 : (pre ++ post).drop (stripLen normalize (normalize file) pre) =
      pre.drop (stripLen normalize (normalize file) pre) ++ post :=
    List.drop_append_of_le_length hle
  have hrun : ∀ acc, runFilter normalize dir
      ((pre ++ f :: v :: post).drop (stripLen normalize (normalize file) pre)) initFS acc cfg =
      runFilter normalize dir
        ((pre ++ post).drop (stripLen normalize (normalize file) pre)) initFS acc cfg := by
    intro acc
    rw [hd1, hd2, runFilter_append, runFilter_append]
    rw [runFilter_acc]
    cases hb : runFilter normalize dir
        (pre.drop (stripLen normalize (normalize file) pre)) initFS [] cfg with
    | none => simp
    | some r =>
      obtain ⟨st, A, C⟩ := r
      rw [hb] at hclean
      simp only [Option.all_some] at hclean
      rw [Bool.and_eq_true] at hclean
      have hsk : st.skipNext = false := by
        rcases hclean with ⟨h1, _⟩
        simpa using h1
      have hnp : st.nextIsPath = false := by
        rcases hclean with ⟨_, h2⟩
        simpa using h2
      simp only [Option.map_some', Option.bind_some]
      have hstepf : filterStep normalize dir st (acc ++ A) C f =
          some ({ st with skipNext := true }, acc ++ A, C) := by
        unfold filterStep
        rw [if_neg (by simp [hsk])]
        rw [if_pos (by simp [hnp, hf])]
      have hstepv : filterStep normalize dir { st with skipNext := true } (acc ++ A) C v =
          some (st, acc ++ A, C) := by
        unfold filterStep
        rw [if_pos rfl]
        cases st
        simp_all
      simp only [runFilter]
      simp [hstepf, hstepv]
  unfold getCompilationEntry
  dsimp only
  rw [hs1, hs2, he1, he2, hrun,
    hany "-working-directory" (by simp), hany "-x" (by simp), hany "-std=" (by simp)]

end Cquery

namespace Cquery

/-- C8 (amended): a multi-token blacklisted flag and the token following it
are both dropped — classifying the list with the pair equals classifying the
list without it — provided the pair sits beyond the stripped wrapper prefix,
the Classifier is not mid-way through a skip or a pending path value when it
reaches the flag, and neither token matches a dialect/standard/
working-directory injection guard. -/
theorem multi_blacklist_flag_value_dropped (normalize : String → String)
    (cfg : ProjectConfig) (dir file : String) (pre post : List String) (f v : String)
    (hf : f ∈ kBlacklistMulti)
    (hstrip : stripLen normalize (normalize file) pre < pre.length)
    (hclean : (runFilter normalize dir
        (pre.drop (stripLen normalize (normalize file) pre)) initFS [] cfg).all
        (fun r => !r.1.skipNext && !r.1.nextIsPath) = true)
    (hg : ∀ g ∈ ["-working-directory", "-x", "-std="],
        strStartsWith f g = false ∧ strStartsWith v g = false) :
    getCompilationEntry normalize cfg ⟨dir, file, pre ++ f :: v :: post⟩ =
      getCompilationEntry normalize cfg ⟨dir, file, pre ++ post⟩ :=
  multi_blacklist_pair_dropped normalize cfg dir file pre post f v
    (startsWithAny_of_mem f kBlacklistMulti hf) hstrip hclean hg

/-- Witness for C8 (amended) at `["cc", "-O2"] ++ ["-MF", "x.d"]`. -/
theorem multi_blacklist_flag_value_dropped_witness :
    ("-MF" ∈ kBlacklistMulti) ∧
    getCompilationEntry testNormalize {} ⟨"/d", "f.cc", ["cc", "-O2"] ++ "-MF" :: "x.d" :: []⟩ =
      getCompilationEntry testNormalize {} ⟨"/d", "f.cc", ["cc", "-O2"] ++ []⟩ :=
  ⟨by decide,
    multi_blacklist_flag_value_dropped testNormalize {} "/d" "f.cc" ["cc", "-O2"] [] "-MF" "x.d"
      (by decide) (by decide) (by decide) (by decide)⟩

/-- C10 (amended): prefix-based multi-token blacklist matching — a token that
merely starts with a multi-token blacklisted flag without being equal to it
is dropped together with the token following it, under the same neutrality
side conditions as C8. -/
theorem fused_multi_blacklist_dropped (normalize : String → String)
    (cfg : ProjectConfig) (dir file : String) (pre post : List String) (f v : String)
    (hf : ∃ m ∈ kBlacklistMulti, strStartsWith f m = true ∧ f ≠ m)
    (hstrip : stripLen normalize (normalize file) pre < pre.length)
    (hclean : (runFilter normalize dir
        (pre.drop (stripLen normalize (normalize file) pre)) initFS [] cfg).all
        (fun r => !r.1.skipNext && !r.1.nextIsPath) = true)
    (hg : ∀ g ∈ ["-working-directory", "-x", "-std="],
        strStartsWith f g = false ∧ strStartsWith v g = false) :
    getCompilationEntry normalize cfg ⟨dir, file, pre ++ f :: v :: post⟩ =
      getCompilationEntry normalize cfg ⟨dir, file, pre ++ post⟩ := by
  apply multi_blacklist_pair_dropped normalize cfg dir file pre post f v _ hstrip hclean hg
  obtain ⟨m, hm, hsw, _⟩ := hf
  rw [startsWithAny, List.any_eq_true]
  exact ⟨m, hm, hsw⟩

/-- Witness for C10 (amended) at `["cc", "-O2"] ++ ["-MFdeps.d", "x"]`. -/
theorem fused_multi_blacklist_dropped_witness :
    (strStartsWith "-MFdeps.d" "-MF" = true ∧ "-MFdeps.d" ≠ "-MF") ∧
    getCompilationEntry testNormalize {}
        ⟨"/d", "f.cc", ["cc", "-O2"] ++ "-MFdeps.d" :: "x" :: []⟩ =
      getCompilationEntry testNormalize {} ⟨"/d", "f.cc", ["cc", "-O2"] ++ []⟩ :=
  ⟨by decide,
    fused_multi_blacklist_dropped testNormalize {} "/d" "f.cc" ["cc", "-O2"] [] "-MFdeps.d" "x"
      ⟨"-MF", by decide, by decide, by decide⟩ (by decide) (by decide) (by decide)⟩

/-- Counterexample to C8 as stated: in `["cc", "-I", "-MF", "x.d"]` the
multi-token blacklisted flag `-MF` is followed by the value token `x.d`, yet
both appear in the output args, because `-MF` is consumed as the path value
of the preceding `-I`. -/
theorem multi_blacklist_kept_as_path_value :
    "-MF" ∈ (getCompilationEntry testNormalize {}
        ⟨"/d", "f.cc", ["cc", "-I", "-MF", "x.d"]⟩).elim [] (fun r => r.1.args) ∧
    "x.d" ∈ (getCompilationEntry testNormalize {}
        ⟨"/d", "f.cc", ["cc", "-I", "-MF", "x.d"]⟩).elim [] (fun r => r.1.args) := by
  decide

/-- Counterexample to C10 as stated: in `["cc", "-I", "-MFdeps.d", "x"]` the
fused token `-MFdeps.d` starts with the multi-token blacklisted flag `-MF`
without being equal to it, yet neither it nor the following token `x` is
dropped, because `-MFdeps.d` is consumed as the path value of `-I`. -/
theorem fused_multi_blacklist_kept_as_path_value :
    "-MFdeps.d" ∈ (getCompilationEntry testNormalize {}
        ⟨"/d", "f.cc", ["cc", "-I", "-MFdeps.d", "x"]⟩).elim [] (fun r => r.1.args) ∧
    "x" ∈ (getCompilationEntry testNormalize {}
        ⟨"/d", "f.cc", ["cc", "-I", "-MFdeps.d", "x"]⟩).elim [] (fun r => r.1.args) := by
  decide

end Cquery

namespace Cquery

theorem str_ne_of_get (a b : String) (n : Nat) (c d : Char)
    (ha : a.data.get? n = some c) (hb : b.data.get? n = some d) (hne : c ≠ d) :
    a ≠ b := by
  intro h
  rw [h, hb] at ha
  exact hne (Option.some.inj ha).symm

theorem getD_zero_append (a b : String) (x : Char) (ha : a.data ≠ []) :
    (a ++ b).data.getD 0 '\x00' = a.data.getD 0 '\x00' := by
  rw [strData_append]
  cases hd : a.data with
  | nil => exact absurd hd ha
  | cons c cs => simp

theorem data_ne_nil_of_front (t : String) (c : Char) (hc : c ≠ '\x00')
    (h : t.data.getD 0 '\x00' = c) : t ≠ "" := by
  intro he
  subst he
  simp at h
  exact hc h.symm

theorem matchPathFlag_none_of_all (t : String) :
    ∀ (L : List String), (∀ p ∈ L, t ≠ p ∧ strStartsWith t p = false) →
      matchPathFlag L t = none := by
  intro L
  induction L with
  | nil => intro _; rfl
  | cons x rest ih =>
    intro h
    obtain ⟨hne, hsw⟩ := h x (by simp)
    rw [matchPathFlag, if_neg hne, if_neg (by simp [hsw])]
    exact ih (fun p hp => h p (by simp [hp]))

theorem matchPathFlag_mem (a ft : String) (b : Bool) :
    ∀ (L : List String), matchPathFlag L a = some (ft, b) → ft ∈ L := by
  intro L
  induction L with
  | nil => intro h; simp [matchPathFlag] at h
  | cons x rest ih =>
    intro h
    rw [matchPathFlag] at h
    by_cases h1 : a = x
    · rw [if_pos h1] at h
      have := congrArg Prod.fst (Option.some.inj h)
      simp at this
      simp [this]
    · rw [if_neg h1] at h
      by_cases h2 : strStartsWith a x = true
      · rw [if_pos h2] at h
        have := congrArg Prod.fst (Option.some.inj h)
        simp at this
        simp [this]
      · rw [if_neg h2] at h
        simp [ih h]

theorem passTok_props (t : String) (h : passTok t = true) :
    t ≠ "" ∧ startsWithAny t kBlacklistMulti = false ∧
    startsWithAny t kBlacklist = false ∧ matchPathFlag kPathArgs t = none := by
  unfold passTok at h
  simp only [Bool.and_eq_true, decide_eq_true_eq, Bool.not_eq_true',
    Option.isNone_iff_eq_none] at h
  tauto

theorem passTok_of_front_slash (t : String) (h : t.data.getD 0 '\x00' = '/') :
    passTok t = true := by
  have hne : t ≠ "" := data_ne_nil_of_front t '/' (by decide) h
  have hfr : t.data.getD 0 '\x00' ≠ '-' := by rw [h]; decide
  have hsw : ∀ p : String, p.data.get? 0 = some '-' → strStartsWith t p = false :=
    fun p hp => strStartsWith_false_of_front t p '-' hp hfr
  have hb1 : startsWithAny t kBlacklistMulti = false := by
    simp only [startsWithAny, kBlacklistMulti, List.any_cons, List.any_nil,
      hsw "-MF" rfl, hsw "-MT" rfl, hsw "-MQ" rfl, hsw "-o" rfl,
      hsw "--serialize-diagnostics" rfl, hsw "-Xclang" rfl]
    rfl
  have hb2 : startsWithAny t kBlacklist = false := by
    simp only [startsWithAny, kBlacklist, List.any_cons, List.any_nil,
      hsw "-c" rfl, hsw "-MP" rfl, hsw "-MD" rfl, hsw "-MMD" rfl,
      hsw "--fcolor-diagnostics" rfl]
    rfl
  have hm : matchPathFlag kPathArgs t = none := by
    apply matchPathFlag_none_of_all
    intro p hp
    have hpd : p.data.get? 0 = some '-' := by
      simp only [kPathArgs, List.mem_cons, List.not_mem_nil, or_false] at hp
      rcases hp with rfl | rfl | rfl | rfl | rfl | rfl | rfl | rfl | rfl | rfl | rfl <;> rfl
    constructor
    · intro he
      subst he
      cases hd : t.data with
      | nil => rw [hd] at hpd; simp at hpd
      | cons c cs =>
        rw [hd] at hpd h
        simp only [List.get?_cons_zero, Option.some.injEq] at hpd
        simp only [List.getD_cons_zero] at h
        rw [hpd] at h
        exact absurd h (by decide)
    · exact hsw p hpd
  rw [passTok]
  simp [hne, hb1, hb2, hm]

end Cquery

namespace Cquery

theorem filterStep_pass_clean (normalize : String → String) (dir : String)
    (st : FilterState) (acc : List String) (cfg : ProjectConfig) (t : String)
    (hsk : st.skipNext = false) (hnp : st.nextIsPath = false) (hp : passTok t = true) :
    filterStep normalize dir st acc cfg t = some (st, acc ++ [t], cfg) := by
  obtain ⟨hne, hb1, hb2, hm⟩ := passTok_props t hp
  unfold filterStep
  rw [if_neg (by simp [hsk])]
  rw [if_neg (by simp [hb1])]
  rw [if_neg (by simp [hb2])]
  rw [if_neg (by simp [hnp])]
  simp [hm]

theorem filterStep_pass_value (normalize : String → String) (dir : String)
    (st : FilterState) (acc : List String) (cfg : ProjectConfig) (t : String)
    (hsk : st.skipNext = false) (hnp : st.nextIsPath = true) (ht : t ≠ "") :
    ∃ cfg', filterStep normalize dir st acc cfg t =
      some (⟨false, false, false, false⟩, acc ++ [t], cfg') := by
  obtain ⟨P, hP⟩ := cleanup_isSome normalize dir t ht
  unfold filterStep
  rw [if_neg (by simp [hsk])]
  rw [if_neg (by simp [hnp])]
  rw [if_neg (by simp [hnp])]
  rw [if_pos hnp]
  rw [hP]
  exact ⟨_, rfl⟩

theorem runFilter_cons_step (normalize : String → String) (dir : String)
    (t : String) (ts : List String) (st : FilterState) (acc : List String)
    (cfg : ProjectConfig) (st₂ : FilterState) (acc₂ : List String) (cfg₂ : ProjectConfig)
    (hstep : filterStep normalize dir st acc cfg t = some (st₂, acc₂, cfg₂)) :
    runFilter normalize dir (t :: ts) st acc cfg = runFilter normalize dir ts st₂ acc₂ cfg₂ := by
  rw [runFilter, hstep]

theorem runFilter_pass_clean (normalize : String → String) (dir : String) :
    ∀ (ts : List String) (st : FilterState) (acc : List String) (cfg : ProjectConfig),
      st.skipNext = false → st.nextIsPath = false →
      (∀ t ∈ ts, passTok t = true) →
      runFilter normalize dir ts st acc cfg = some (st, acc ++ ts, cfg) := by
  intro ts
  induction ts with
  | nil => intro st acc cfg _ _ _; simp [runFilter]
  | cons t ts ih =>
    intro st acc cfg hsk hnp hp
    rw [runFilter_cons_step normalize dir t ts st acc cfg st (acc ++ [t]) cfg
      (filterStep_pass_clean normalize dir st acc cfg t hsk hnp (hp t (by simp)))]
    rw [ih st (acc ++ [t]) cfg hsk hnp (fun x hx => hp x (by simp [hx]))]
    simp

theorem runFilter_pass_any (normalize : String → String) (dir : String) :
    ∀ (ts : List String) (st : FilterState) (acc : List String) (cfg : ProjectConfig),
      st.skipNext = false →
      (∀ t ∈ ts, passTok t = true) →
      ∃ st' cfg', runFilter normalize dir ts st acc cfg = some (st', acc ++ ts, cfg') := by
  intro ts
  induction ts with
  | nil => intro st acc cfg _ _; exact ⟨st, cfg, by simp [runFilter]⟩
  | cons t ts ih =>
    intro st acc cfg hsk hp
    by_cases hnp : st.nextIsPath = true
    · obtain ⟨cfgv, hstep⟩ := filterStep_pass_value normalize dir st acc cfg t hsk hnp
        (passTok_props t (hp t (by simp))).1
      obtain ⟨st', cfg', hrest⟩ := ih ⟨false, false, false, false⟩ (acc ++ [t]) cfgv rfl
        (fun x hx => hp x (by simp [hx]))
      refine ⟨st', cfg', ?_⟩
      rw [runFilter_cons_step normalize dir t ts st acc cfg _ _ _ hstep, hrest]
      simp
    · have hnp' : st.nextIsPath = false := by simpa using hnp
      obtain ⟨st', cfg', hrest⟩ := ih st (acc ++ [t]) cfg hsk (fun x hx => hp x (by simp [hx]))
      refine ⟨st', cfg', ?_⟩
      rw [runFilter_cons_step normalize dir t ts st acc cfg st (acc ++ [t]) cfg
        (filterStep_pass_clean normalize dir st acc cfg t hsk hnp' (hp t (by simp))), hrest]
      simp

theorem resTok_passTok (R : String) : passTok ("-resource-dir=" ++ R) = true := by
  have ht1 : ("-resource-dir=" ++ R).data.get? 1 = some 'r' :=
    get?_append_left_str "-resource-dir=" R 1 (by decide)
  have hne : ("-resource-dir=" ++ R) ≠ "" := by
    apply data_ne_nil_of_front _ '-' (by decide)
    exact getD_zero_append "-resource-dir=" R '\x00' (by decide)
  have hb1 : startsWithAny ("-resource-dir=" ++ R) kBlacklistMulti = false :=
    swAny_false_of_get _ kBlacklistMulti 1 'r' ht1 (by decide)
  have hb2 : startsWithAny ("-resource-dir=" ++ R) kBlacklist = false :=
    swAny_false_of_get _ kBlacklist 1 'r' ht1 (by decide)
  have hm : matchPathFlag kPathArgs ("-resource-dir=" ++ R) = none := by
    apply matchPathFlag_none_of_all
    intro p hp
    simp only [kPathArgs, List.mem_cons, List.not_mem_nil, or_false] at hp
    rcases hp with rfl | rfl | rfl | rfl | rfl | rfl | rfl | rfl | rfl | rfl | rfl <;>
      exact ⟨str_ne_of_get _ _ 1 'r' _ ht1 (by rfl) (by decide),
             strStartsWith_false_of_get _ _ 1 _ 'r' (by rfl) ht1 (by decide)⟩
  rw [passTok]
  simp [hne, hb1, hb2, hm]

end Cquery

namespace Cquery

theorem cleanup_eq_normalize (normalize : String → String) (dir path P : String)
    (h : cleanup normalize dir path = some P) : ∃ y, P = normalize y := by
  unfold cleanup at h
  by_cases h1 : path = ""
  · rw [if_pos h1] at h; simp at h
  · rw [if_neg h1] at h
    by_cases h2 : path.data.getD 0 '\x00' = '/' ∨ dir = ""
    · rw [if_pos h2] at h
      exact ⟨path, (Option.some.inj h).symm⟩
    · rw [if_neg h2] at h
      exact ⟨dir ++ "/" ++ path, (Option.some.inj h).symm⟩

theorem str_decomp_of_sw (a p : String) (h : strStartsWith a p = true) :
    ∃ r : String, a = p ++ r := by
  unfold strStartsWith at h
  have hp : p.data <+: a.data := by
    rw [← List.isPrefixOf_iff_prefix]
    simpa using h
  obtain ⟨s, hs⟩ := hp
  refine ⟨⟨s⟩, ?_⟩
  apply str_eq_of_data
  rw [strData_append, ← hs]

theorem sysroot_tok_props (P : String) (hne : P ≠ "") :
    startsWithAny ("--sysroot=" ++ P) kBlacklistMulti = false ∧
    startsWithAny ("--sysroot=" ++ P) kBlacklist = false ∧
    startsWithAny ("--sysroot=" ++ P) kNormalizePathArgs = true ∧
    matchPathFlag kPathArgs ("--sysroot=" ++ P) = some ("--sysroot=", false) ∧
    (⟨("--sysroot=" ++ P).data.drop ("--sysroot=" : String).data.length⟩ : String) = P := by
  have ht1 : ("--sysroot=" ++ P).data.get? 1 = some '-' :=
    get?_append_left_str "--sysroot=" P 1 (by decide)
  have ht2 : ("--sysroot=" ++ P).data.get? 2 = some 's' :=
    get?_append_left_str "--sysroot=" P 2 (by decide)
  have ht3 : ("--sysroot=" ++ P).data.get? 3 = some 'y' :=
    get?_append_left_str "--sysroot=" P 3 (by decide)
  have hsw : strStartsWith ("--sysroot=" ++ P) "--sysroot=" = true := by
    unfold strStartsWith
    rw [strData_append, List.isPrefixOf_iff_prefix]
    exact List.prefix_append _ _
  have hneq : ("--sysroot=" ++ P) ≠ "--sysroot=" := by
    intro h
    apply hne
    have hd := congrArg String.data h
    rw [strData_append] at hd
    have : P.data = [] := by simpa using hd
    exact str_eq_of_data P "" (by simpa using this)
  have hb1 : startsWithAny ("--sysroot=" ++ P) kBlacklistMulti = false := by
    simp only [startsWithAny, kBlacklistMulti, List.any_cons, List.any_nil,
      strStartsWith_false_of_get _ "-MF" 1 'M' '-' rfl ht1 (by decide),
      strStartsWith_false_of_get _ "-MT" 1 'M' '-' rfl ht1 (by decide),
      strStartsWith_false_of_get _ "-MQ" 1 'M' '-' rfl ht1 (by decide),
      strStartsWith_false_of_get _ "-o" 1 'o' '-' rfl ht1 (by decide),
      strStartsWith_false_of_get _ "--serialize-diagnostics" 3 'e' 'y' rfl ht3 (by decide),
      strStartsWith_false_of_get _ "-Xclang" 1 'X' '-' rfl ht1 (by decide)]
    rfl
  have hb2 : startsWithAny ("--sysroot=" ++ P) kBlacklist = false := by
    simp only [startsWithAny, kBlacklist, List.any_cons, List.any_nil,
      strStartsWith_false_of_get _ "-c" 1 'c' '-' rfl ht1 (by decide),
      strStartsWith_false_of_get _ "-MP" 1 'M' '-' rfl ht1 (by decide),
      strStartsWith_false_of_get _ "-MD" 1 'M' '-' rfl ht1 (by decide),
      strStartsWith_false_of_get _ "-MMD" 1 'M' '-' rfl ht1 (by decide),
      strStartsWith_false_of_get _ "--fcolor-diagnostics" 2 'f' 's' rfl ht2 (by decide)]
    rfl
  have hb3 : startsWithAny ("--sysroot=" ++ P) kNormalizePathArgs = true := by
    simp only [startsWithAny, kNormalizePathArgs, List.any_cons, List.any_nil, hsw]
    rfl
  have hmf : matchPathFlag kPathArgs ("--sysroot=" ++ P) = some ("--sysroot=", false) := by
    show matchPathFlag ("-I" :: "-iquote" :: "-isystem" :: "--sysroot=" :: "-isysroot" ::
      "-gcc-toolchain" :: "-include-pch" :: "-iframework" :: "-F" :: "-imacros" ::
      "-include" :: []) ("--sysroot=" ++ P) = _
    rw [matchPathFlag, if_neg (str_ne_of_get _ "-I" 1 '-' 'I' ht1 rfl (by decide)),
      if_neg (by simp [strStartsWith_false_of_get _ "-I" 1 'I' '-' rfl ht1 (by decide)])]
    rw [matchPathFlag, if_neg (str_ne_of_get _ "-iquote" 1 '-' 'i' ht1 rfl (by decide)),
      if_neg (by simp [strStartsWith_false_of_get _ "-iquote" 1 'i' '-' rfl ht1 (by decide)])]
    rw [matchPathFlag, if_neg (str_ne_of_get _ "-isystem" 1 '-' 'i' ht1 rfl (by decide)),
      if_neg (by simp [strStartsWith_false_of_get _ "-isystem" 1 'i' '-' rfl ht1 (by decide)])]
    rw [matchPathFlag, if_neg hneq, if_pos hsw]
  have hdrop : (⟨("--sysroot=" ++ P).data.drop ("--sysroot=" : String).data.length⟩ : String)
      = P := by
    rw [strData_append]
    show (⟨(("--sysroot=" : String).data ++ P.data).drop
      ("--sysroot=" : String).data.length⟩ : String) = P
    rw [List.drop_left]
  exact ⟨hb1, hb2, hb3, hmf, hdrop⟩

theorem appendUnlessPresent_spec (args : List String) (g tok : String)
    (htok : strStartsWith tok g = true) :
    ∃ gs, appendUnlessPresent args g tok = args ++ gs ∧ (∀ t ∈ gs, t = tok) ∧
      anyStartsWith (args ++ gs) g = true := by
  unfold appendUnlessPresent
  by_cases h : anyStartsWith args g = true
  · rw [if_pos h]
    exact ⟨[], by simp, by simp, by simpa using h⟩
  · rw [if_neg h]
    refine ⟨[tok], rfl, by simp, ?_⟩
    rw [anyStartsWith_append]
    simp [anyStartsWith_cons, htok]

theorem anyStartsWith_mono (l more : List String) (g : String)
    (h : anyStartsWith l g = true) : anyStartsWith (l ++ more) g = true := by
  rw [anyStartsWith_append, h]
  rfl

theorem anyStartsWith_of_mem_sw (l : List String) (t g : String)
    (hm : t ∈ l) (hsw : strStartsWith t g = true) : anyStartsWith l g = true := by
  rw [anyStartsWith, List.any_eq_true]
  exact ⟨t, hm, hsw⟩

theorem takeWhile_stop (p : String → Bool) :
    ∀ (l : List String), (l.takeWhile p).length < l.length →
      ∃ x rest, l.drop (l.takeWhile p).length = x :: rest ∧ p x = false := by
  intro l
  induction l with
  | nil => intro h; simp at h
  | cons a t ih =>
    intro h
    by_cases hp : p a = true
    · rw [List.takeWhile_cons, if_pos hp] at h ⊢
      simp only [List.length_cons, List.drop_succ_cons]
      exact ih (by simpa using Nat.lt_of_succ_lt_succ h)
    · rw [List.takeWhile_cons, if_neg hp]
      exact ⟨a, t, by simp, by simpa using hp⟩

theorem SourceFileType_cases (f : String) :
    SourceFileType f = none ∨ SourceFileType f = some "c" ∨ SourceFileType f = some "c++" ∨
    SourceFileType f = some "objective-c++" ∨ SourceFileType f = some "objective-c" := by
  unfold SourceFileType
  repeat' split
  all_goals simp

theorem mem_of_getLast?_eq (l : List String) (x : String) (h : l.getLast? = some x) :
    x ∈ l := by
  induction l with
  | nil => simp at h
  | cons a t ih =>
    cases t with
    | nil =>
      simp at h
      simp [h]
    | cons b u =>
      rw [List.getLast?_cons_cons] at h
      simp [ih h]

theorem execOf_stripCond (normalize : String → String) (fname : String) (args : List String)
    (H5 : normalize "clang++" ≠ fname) :
    stripCond normalize fname (execOf normalize fname args) = true := by
  unfold execOf
  cases htw : (args.takeWhile (stripCond normalize fname)).getLast? with
  | none =>
    simp only [Option.getD_none]
    unfold stripCond
    rw [if_neg (by decide), if_neg H5]
    decide
  | some x =>
    simp only [Option.getD_some]
    have hx : x ∈ args.takeWhile (stripCond normalize fname) :=
      mem_of_getLast?_eq _ x htw
    exact List.mem_takeWhile_imp hx

end Cquery

namespace Cquery

theorem filterStep_value_eq (normalize : String → String) (dir : String)
    (st : FilterState) (acc : List String) (cfg : ProjectConfig) (a : String)
    (hsk : st.skipNext = false) (hnp : st.nextIsPath = true) :
    filterStep normalize dir st acc cfg a =
      match cleanup normalize dir a with
      | none => none
      | some na =>
        some (⟨false, false, false, false⟩, acc ++ [a],
          (let cfg1 := if st.addQuote then
              { cfg with quote_dirs := insertSet cfg.quote_dirs na } else cfg
           if st.addAngle then
              { cfg1 with angle_dirs := insertSet cfg1.angle_dirs na } else cfg1)) := by
  unfold filterStep
  rw [if_neg (by simp [hsk]), if_neg (by simp [hnp]), if_neg (by simp [hnp]), if_pos hnp]

theorem filterStep_clean_eq (normalize : String → String) (dir : String)
    (st : FilterState) (acc : List String) (cfg : ProjectConfig) (a : String)
    (hsk : st.skipNext = false) (hnp : st.nextIsPath = false)
    (hbm : startsWithAny a kBlacklistMulti = false)
    (hbs : startsWithAny a kBlacklist = false) :
    filterStep normalize dir st acc cfg a =
      match matchPathFlag kPathArgs a with
      | some (_, true) =>
        some (⟨false, true, shouldAddToQuoteIncludes a, shouldAddToAngleIncludes a⟩,
          acc ++ [a], cfg)
      | some (ft, false) =>
        match cleanup normalize dir ⟨a.data.drop ft.data.length⟩ with
        | none => none
        | some p =>
          some (st, acc ++ [if startsWithAny a kNormalizePathArgs then ft ++ p else a],
            (let c1 := if shouldAddToQuoteIncludes ft then
                { cfg with quote_dirs := insertSet cfg.quote_dirs p } else cfg
             if shouldAddToAngleIncludes ft then
                { c1 with angle_dirs := insertSet c1.angle_dirs p } else c1))
      | none => some (st, acc ++ [a], cfg) := by
  unfold filterStep
  rw [if_neg (by simp [hsk]), if_neg (by simp [hbm]), if_neg (by simp [hbs]),
    if_neg (by simp [hnp])]

end Cquery

namespace Cquery

theorem runFilter_stable (normalize : String → String) (dir : String)
    (habs : ∀ p, (normalize p).data.getD 0 '\x00' = '/')
    (hidem : ∀ p, normalize (normalize p) = normalize p) :
    ∀ (l : List String) (st : FilterState) (cfg c1 : ProjectConfig)
      (st1 : FilterState) (F : List String),
      st.skipNext = false →
      (∀ t ∈ l, startsWithAny t kBlacklistMulti = false ∧
        startsWithAny t kBlacklist = false) →
      runFilter normalize dir l st [] cfg = some (st1, F, c1) →
      st1.skipNext = false ∧
      ∀ cfg₂ : ProjectConfig, ∃ c2, runFilter normalize dir F st [] cfg₂ = some (st1, F, c2) := by
  intro l
  induction l with
  | nil =>
    intro st cfg c1 st1 F hsk hb hrun
    simp only [runFilter, Option.some.injEq, Prod.mk.injEq] at hrun
    obtain ⟨rfl, rfl, rfl⟩ := hrun
    exact ⟨hsk, fun cfg₂ => ⟨cfg₂, rfl⟩⟩
  | cons a l' ih =>
    intro st cfg c1 st1 F hsk hb hrun
    obtain ⟨hbm, hbs⟩ := hb a (by simp)
    have hbtail : ∀ t ∈ l', startsWithAny t kBlacklistMulti = false ∧
        startsWithAny t kBlacklist = false := fun t ht => hb t (by simp [ht])
    rw [runFilter] at hrun
    by_cases hnp : st.nextIsPath = true
    · -- the head token is consumed as a pending path value and pushed verbatim
      rw [filterStep_value_eq normalize dir st [] cfg a hsk hnp] at hrun
      cases hcl : cleanup normalize dir a with
      | none => rw [hcl] at hrun; simp at hrun
      | some na =>
        rw [hcl] at hrun
        simp only [] at hrun
        rw [runFilter_acc] at hrun
        cases hr2 : runFilter normalize dir l' ⟨false, false, false, false⟩ []
            (let cfg1 := if st.addQuote = true then
                { cfg with quote_dirs := insertSet cfg.quote_dirs na } else cfg
             if st.addAngle = true then
                { cfg1 with angle_dirs := insertSet cfg1.angle_dirs na } else cfg1) with
        | none => rw [hr2] at hrun; simp at hrun
        | some r2 =>
          obtain ⟨stX, FX, cX⟩ := r2
          rw [hr2] at hrun
          simp only [Option.map_some', Option.some.injEq, Prod.mk.injEq] at hrun
          obtain ⟨rfl, rfl, rfl⟩ := hrun
          obtain ⟨hskX, hstab⟩ := ih ⟨false, false, false, false⟩ _ cX stX FX rfl hbtail hr2
          refine ⟨hskX, fun cfg₂ => ?_⟩
          have hstep2 : filterStep normalize dir st [] cfg₂ a =
              some (⟨false, false, false, false⟩, [] ++ [a],
                (let cfg1 := if st.addQuote = true then
                    { cfg₂ with quote_dirs := insertSet cfg₂.quote_dirs na } else cfg₂
                 if st.addAngle = true then
                    { cfg1 with angle_dirs := insertSet cfg1.angle_dirs na } else cfg1)) := by
            rw [filterStep_value_eq normalize dir st [] cfg₂ a hsk hnp, hcl]
          obtain ⟨c2, hc2⟩ := hstab (let cfg1 := if st.addQuote = true then
              { cfg₂ with quote_dirs := insertSet cfg₂.quote_dirs na } else cfg₂
            if st.addAngle = true then
              { cfg1 with angle_dirs := insertSet cfg1.angle_dirs na } else cfg1)
          refine ⟨c2, ?_⟩
          simp only [List.nil_append, List.singleton_append]
          rw [runFilter_cons_step normalize dir a FX st [] cfg₂ _ _ _ hstep2]
          rw [runFilter_acc, hc2]
          simp
    · have hnp' : st.nextIsPath = false := by simpa using hnp
      rw [filterStep_clean_eq normalize dir st [] cfg a hsk hnp' hbm hbs] at hrun
      rcases hm : matchPathFlag kPathArgs a with _ | ⟨ft, b⟩
      · -- no path flag matches: pushed verbatim, state unchanged
        rw [hm] at hrun
        simp only [] at hrun
        rw [runFilter_acc] at hrun
        cases hr2 : runFilter normalize dir l' st [] cfg with
        | none => rw [hr2] at hrun; simp at hrun
        | some r2 =>
          obtain ⟨stX, FX, cX⟩ := r2
          rw [hr2] at hrun
          simp only [Option.map_some', Option.some.injEq, Prod.mk.injEq] at hrun
          obtain ⟨rfl, rfl, rfl⟩ := hrun
          obtain ⟨hskX, hstab⟩ := ih st _ cX stX FX hsk hbtail hr2
          refine ⟨hskX, fun cfg₂ => ?_⟩
          obtain ⟨c2, hc2⟩ := hstab cfg₂
          refine ⟨c2, ?_⟩
          have hstep2 : filterStep normalize dir st [] cfg₂ a = some (st, [] ++ [a], cfg₂) := by
            rw [filterStep_clean_eq normalize dir st [] cfg₂ a hsk hnp' hbm hbs, hm]
          simp only [List.nil_append, List.singleton_append]
          rw [runFilter_cons_step normalize dir a FX st [] cfg₂ _ _ _ hstep2]
          rw [runFilter_acc, hc2]
          simp
      · cases b
        · -- fused path flag
          rw [hm] at hrun
          simp only [] at hrun
          cases hcl : cleanup normalize dir ⟨a.data.drop ft.data.length⟩ with
          | none => rw [hcl] at hrun; simp at hrun
          | some P =>
            rw [hcl] at hrun
            simp only [] at hrun
            by_cases hnpa : startsWithAny a kNormalizePathArgs = true
            · -- the --sysroot= rewrite case
              have hswsys : strStartsWith a "--sysroot=" = true := by
                simpa [startsWithAny, kNormalizePathArgs] using hnpa
              obtain ⟨Q, rfl⟩ := str_decomp_of_sw a "--sysroot=" hswsys
              by_cases hQ : Q = ""
              · exfalso
                subst hQ
                have haeq : ("--sysroot=" ++ "" : String) = "--sysroot=" := by
                  apply str_eq_of_data
                  rw [strData_append]
                  simp
                rw [haeq] at hm
                rw [show matchPathFlag kPathArgs "--sysroot=" = some ("--sysroot=", true)
                  from by decide] at hm
                simp at hm
              · obtain ⟨_, _, _, hmf', hdrop'⟩ := sysroot_tok_props Q hQ
                have hft : ft = "--sysroot=" := by
                  rw [hmf'] at hm
                  exact (congrArg Prod.fst (Option.some.inj hm)).symm
                subst hft
                rw [hdrop'] at hcl
                obtain ⟨y, rfl⟩ := cleanup_eq_normalize normalize dir Q P hcl
                have hPfront : (normalize y).data.getD 0 '\x00' = '/' := habs y
                have hPne : normalize y ≠ "" := data_ne_nil_of_front _ '/' (by decide) hPfront
                rw [if_pos hnpa] at hrun
                rw [runFilter_acc] at hrun
                cases hr2 : runFilter normalize dir l' st []
                    (let c1 := if shouldAddToQuoteIncludes "--sysroot=" = true then
                        { cfg with quote_dirs := insertSet cfg.quote_dirs (normalize y) } else cfg
                     if shouldAddToAngleIncludes "--sysroot=" = true then
                        { c1 with angle_dirs := insertSet c1.angle_dirs (normalize y) } else c1) with
                | none => rw [hr2] at hrun; simp at hrun
                | some r2 =>
                  obtain ⟨stX, FX, cX⟩ := r2
                  rw [hr2] at hrun
                  simp only [Option.map_some', Option.some.injEq, Prod.mk.injEq] at hrun
                  obtain ⟨rfl, rfl, rfl⟩ := hrun
                  obtain ⟨hskX, hstab⟩ := ih st _ cX stX FX hsk hbtail hr2
                  refine ⟨hskX, fun cfg₂ => ?_⟩
                  obtain ⟨hbp1, hbp2, hbp3, hmfp, hdropp⟩ := sysroot_tok_props (normalize y) hPne
                  have hclP : cleanup normalize dir (normalize y) = some (normalize y) := by
                    unfold cleanup
                    rw [if_neg hPne, if_pos (Or.inl hPfront)]
                    rw [hidem y]
                  have hstep2 : filterStep normalize dir st [] cfg₂ ("--sysroot=" ++ normalize y) =
                      some (st, [] ++ ["--sysroot=" ++ normalize y],
                        (let c1 := if shouldAddToQuoteIncludes "--sysroot=" = true then
                            { cfg₂ with quote_dirs := insertSet cfg₂.quote_dirs (normalize y) } else cfg₂
                         if shouldAddToAngleIncludes "--sysroot=" = true then
                            { c1 with angle_dirs := insertSet c1.angle_dirs (normalize y) } else c1)) := by
                    rw [filterStep_clean_eq normalize dir st [] cfg₂ _ hsk hnp' hbp1 hbp2, hmfp]
                    simp only [hdropp, hclP]
                    rw [if_pos hbp3]
                  obtain ⟨c2, hc2⟩ := hstab _
                  refine ⟨c2, ?_⟩
                  simp only [List.nil_append, List.singleton_append]
                  rw [runFilter_cons_step normalize dir _ FX st [] cfg₂ _ _ _ hstep2]
                  rw [runFilter_acc, hc2]
                  simp
            · -- no rewrite: the fused token is pushed verbatim
              rw [if_neg hnpa] at hrun
              rw [runFilter_acc] at hrun
              cases hr2 : runFilter normalize dir l' st []
                  (let c1 := if shouldAddToQuoteIncludes ft = true then
                      { cfg with quote_dirs := insertSet cfg.quote_dirs P } else cfg
                   if shouldAddToAngleIncludes ft = true then
                      { c1 with angle_dirs := insertSet c1.angle_dirs P } else c1) with
              | none => rw [hr2] at hrun; simp at hrun
              | some r2 =>
                obtain ⟨stX, FX, cX⟩ := r2
                rw [hr2] at hrun
                simp only [Option.map_some', Option.some.injEq, Prod.mk.injEq] at hrun
                obtain ⟨rfl, rfl, rfl⟩ := hrun
                obtain ⟨hskX, hstab⟩ := ih st _ cX stX FX hsk hbtail hr2
                refine ⟨hskX, fun cfg₂ => ?_⟩
                have hstep2 : filterStep normalize dir st [] cfg₂ a =
                    some (st, [] ++ [a],
                      (let c1 := if shouldAddToQuoteIncludes ft = true then
                          { cfg₂ with quote_dirs := insertSet cfg₂.quote_dirs P } else cfg₂
                       if shouldAddToAngleIncludes ft = true then
                          { c1 with angle_dirs := insertSet c1.angle_dirs P } else c1)) := by
                  rw [filterStep_clean_eq normalize dir st [] cfg₂ a hsk hnp' hbm hbs, hm]
                  simp only [hcl]
                  rw [if_neg hnpa]
                obtain ⟨c2, hc2⟩ := hstab _
                refine ⟨c2, ?_⟩
                simp only [List.nil_append, List.singleton_append]
                rw [runFilter_cons_step normalize dir a FX st [] cfg₂ _ _ _ hstep2]
                rw [runFilter_acc, hc2]
                simp
        · -- exact path flag: pushed, pending state
          rw [hm] at hrun
          simp only [] at hrun
          rw [runFilter_acc] at hrun
          cases hr2 : runFilter normalize dir l'
              ⟨false, true, shouldAddToQuoteIncludes a, shouldAddToAngleIncludes a⟩ [] cfg with
          | none => rw [hr2] at hrun; simp at hrun
          | some r2 =>
            obtain ⟨stX, FX, cX⟩ := r2
            rw [hr2] at hrun
            simp only [Option.map_some', Option.some.injEq, Prod.mk.injEq] at hrun
            obtain ⟨rfl, rfl, rfl⟩ := hrun
            obtain ⟨hskX, hstab⟩ := ih
              ⟨false, true, shouldAddToQuoteIncludes a, shouldAddToAngleIncludes a⟩ _ cX stX FX
              rfl hbtail hr2
            refine ⟨hskX, fun cfg₂ => ?_⟩
            obtain ⟨c2, hc2⟩ := hstab cfg₂
            refine ⟨c2, ?_⟩
            have hstep2 : filterStep normalize dir st [] cfg₂ a =
                some (⟨false, true, shouldAddToQuoteIncludes a, shouldAddToAngleIncludes a⟩,
                  [] ++ [a], cfg₂) := by
              rw [filterStep_clean_eq normalize dir st [] cfg₂ a hsk hnp' hbm hbs, hm]
            simp only [List.nil_append, List.singleton_append]
            rw [runFilter_cons_step normalize dir a FX st [] cfg₂ _ _ _ hstep2]
            rw [runFilter_acc, hc2]
            simp

end Cquery

namespace Cquery

theorem getCompilationEntry_eq (normalize : String → String) (cfg : ProjectConfig)
    (entry : CompileCommandsEntry) :
    getCompilationEntry normalize cfg entry =
      match runFilter normalize entry.directory
          (entry.args.drop (stripLen normalize (normalize entry.file) entry.args)) initFS
          ([execOf normalize (normalize entry.file) entry.args] ++
            injTokens entry.args entry.directory entry.file) cfg with
      | none => none
      | some (_, acc, cfgF) =>
        let acc := acc ++ cfgF.extra_flags
        let acc := appendUnlessPresent acc "-resource-dir" ("-resource-dir=" ++ cfgF.resource_dir)
        let acc := appendUnlessPresent acc "-Wno-unknown-warning-option"
          "-Wno-unknown-warning-option"
        let acc := appendUnlessPresent acc "-fparse-all-comments" "-fparse-all-comments"
        some ({ filename := normalize entry.file, args := acc, is_inferred := false }, cfgF) := by
  unfold getCompilationEntry injTokens
  repeat' split
  all_goals simp_all

theorem filterStep_preserves (normalize : String → String) (dir : String)
    (st : FilterState) (acc : List String) (cfg : ProjectConfig) (a : String)
    (r : FilterState × List String × ProjectConfig)
    (h : filterStep normalize dir st acc cfg a = some r) :
    r.2.2.extra_flags = cfg.extra_flags ∧ r.2.2.resource_dir = cfg.resource_dir := by
  unfold filterStep at h
  repeat' split at h
  all_goals simp_all
  all_goals (obtain ⟨rfl⟩ := h; simp)

theorem runFilter_preserves (normalize : String → String) (dir : String) :
    ∀ (l : List String) (st : FilterState) (acc : List String) (cfg : ProjectConfig)
      (r : FilterState × List String × ProjectConfig),
      runFilter normalize dir l st acc cfg = some r →
      r.2.2.extra_flags = cfg.extra_flags ∧ r.2.2.resource_dir = cfg.resource_dir := by
  intro l
  induction l with
  | nil =>
    intro st acc cfg r h
    simp only [runFilter, Option.some.injEq] at h
    rw [← h]
    exact ⟨rfl, rfl⟩
  | cons a rest ih =>
    intro st acc cfg r h
    rw [runFilter] at h
    cases hs : filterStep normalize dir st acc cfg a with
    | none => rw [hs] at h; simp at h
    | some r1 =>
      rw [hs] at h
      simp only [] at h
      obtain ⟨h1, h2⟩ := filterStep_preserves normalize dir st acc cfg a r1 hs
      obtain ⟨h3, h4⟩ := ih r1.1 r1.2.1 r1.2.2 r h
      exact ⟨h3.trans h1, h4.trans h2⟩

end Cquery

namespace Cquery

theorem get?_of_sw (a p : String) (n : Nat) (c : Char)
    (hsw : strStartsWith a p = true) (hp : p.data.get? n = some c) :
    a.data.get? n = some c := by
  obtain ⟨r, rfl⟩ := str_decomp_of_sw a p hsw
  rw [get?_append_left_str p r n (List.get?_eq_some.mp hp).1]
  exact hp

theorem drop_stripLen (p : String → Bool) :
    ∀ (l : List String), l.drop ((l.takeWhile p).length) = l.dropWhile p := by
  intro l
  induction l with
  | nil => rfl
  | cons a t ih =>
    by_cases hp : p a = true
    · rw [List.takeWhile_cons, if_pos hp, List.dropWhile_cons_of_pos hp]
      simpa using ih
    · rw [List.takeWhile_cons, if_neg hp,
        List.dropWhile_cons_of_neg (by simpa using hp)]
      simp

theorem mem_dropWhile_of_neg (p : String → Bool) :
    ∀ (l : List String) (t : String), t ∈ l → p t = false → t ∈ l.dropWhile p := by
  intro l
  induction l with
  | nil => intro t h; simp at h
  | cons a rest ih =>
    intro t hm hf
    by_cases hp : p a = true
    · rw [List.dropWhile_cons_of_pos hp]
      rcases List.mem_cons.mp hm with rfl | hm'
      · rw [hp] at hf; simp at hf
      · exact ih t hm' hf
    · rw [List.dropWhile_cons_of_neg (by simpa using hp)]
      exact hm

theorem stripCond_false_of_dash (normalize : String → String) (fname t : String)
    (h : t.data.get? 0 = some '-') : stripCond normalize fname t = false := by
  have hg : t.data.getD 0 '\x00' = '-' := by
    cases hd : t.data with
    | nil => rw [hd] at h; simp at h
    | cons c cs =>
      rw [hd] at h
      simp only [List.get?_cons_zero, Option.some.injEq] at h
      simp [h]
  unfold stripCond
  rw [if_pos hg]

theorem kPathArgs_front : ∀ m ∈ kPathArgs, m.data.get? 0 = some '-' ∧ m.data ≠ [] := by
  decide

theorem runFilter_acc_decomp (normalize : String → String) (dir : String)
    (l : List String) (st : FilterState) (acc : List String) (cfg : ProjectConfig)
    (r : FilterState × List String × ProjectConfig)
    (h : runFilter normalize dir l st acc cfg = some r) :
    ∃ F c0, runFilter normalize dir l st [] cfg = some (r.1, F, c0) ∧ r.2.1 = acc ++ F := by
  rw [runFilter_acc] at h
  cases hb : runFilter normalize dir l st [] cfg with
  | none => rw [hb] at h; simp at h
  | some r0 =>
    rw [hb] at h
    simp only [Option.map_some', Option.some.injEq] at h
    refine ⟨r0.2.1, r0.2.2, ?_, ?_⟩
    · rw [← h]
    · rw [← h]

theorem runFilter_mem (normalize : String → String) (dir : String) :
    ∀ (l : List String) (st : FilterState) (acc : List String) (cfg : ProjectConfig)
      (r : FilterState × List String × ProjectConfig),
      st.skipNext = false →
      (∀ t ∈ l, startsWithAny t kBlacklistMulti = false ∧
        startsWithAny t kBlacklist = false) →
      runFilter normalize dir l st acc cfg = some r →
      ∀ t ∈ l, t ∈ r.2.1 ∨ startsWithAny t kNormalizePathArgs = true := by
  intro l
  induction l with
  | nil => intro st acc cfg r _ _ _ t ht; simp at ht
  | cons a l' ih =>
    intro st acc cfg r hsk hb hrun t ht
    obtain ⟨hbm, hbs⟩ := hb a (by simp)
    have hbtail : ∀ t ∈ l', startsWithAny t kBlacklistMulti = false ∧
        startsWithAny t kBlacklist = false := fun t ht => hb t (by simp [ht])
    rw [runFilter] at hrun
    have hmemout : ∀ (st₂ : FilterState) (out : String) (cfg₂ : ProjectConfig),
        filterStep normalize dir st acc cfg a = some (st₂, acc ++ [out], cfg₂) →
        st₂.skipNext = false →
        runFilter normalize dir l' st₂ (acc ++ [out]) cfg₂ = some r →
        out ∈ r.2.1 ∧ (∀ u ∈ l', u ∈ r.2.1 ∨ startsWithAny u kNormalizePathArgs = true) := by
      intro st₂ out cfg₂ hstep hsk₂ hcont
      constructor
      · obtain ⟨F, c0, _, hdec⟩ := runFilter_acc_decomp normalize dir l' st₂ (acc ++ [out])
          cfg₂ r hcont
        rw [hdec]
        simp
      · exact fun u hu => ih st₂ (acc ++ [out]) cfg₂ r hsk₂ hbtail hcont u hu
    by_cases hnp : st.nextIsPath = true
    · rw [filterStep_value_eq normalize dir st acc cfg a hsk hnp] at hrun
      cases hcl : cleanup normalize dir a with
      | none => rw [hcl] at hrun; simp at hrun
      | some na =>
        rw [hcl] at hrun
        simp only [] at hrun
        have := hmemout _ a _ (by
          rw [filterStep_value_eq normalize dir st acc cfg a hsk hnp, hcl]) rfl hrun
        rcases List.mem_cons.mp ht with rfl | ht'
        · exact Or.inl this.1
        · exact this.2 t ht'
    · have hnp' : st.nextIsPath = false := by simpa using hnp
      rw [filterStep_clean_eq normalize dir st acc cfg a hsk hnp' hbm hbs] at hrun
      rcases hm : matchPathFlag kPathArgs a with _ | ⟨ft, b⟩
      · rw [hm] at hrun
        simp only [] at hrun
        have := hmemout st a cfg (by
          rw [filterStep_clean_eq normalize dir st acc cfg a hsk hnp' hbm hbs, hm]) hsk hrun
        rcases List.mem_cons.mp ht with rfl | ht'
        · exact Or.inl this.1
        · exact this.2 t ht'
      · cases b
        · rw [hm] at hrun
          simp only [] at hrun
          cases hcl : cleanup normalize dir ⟨a.data.drop ft.data.length⟩ with
          | none => rw [hcl] at hrun; simp at hrun
          | some P =>
            rw [hcl] at hrun
            simp only [] at hrun
            by_cases hnpa : startsWithAny a kNormalizePathArgs = true
            · rcases List.mem_cons.mp ht with rfl | ht'
              · exact Or.inr hnpa
              · rw [if_pos hnpa] at hrun
                exact (hmemout st (ft ++ P) _ (by
                  rw [filterStep_clean_eq normalize dir st acc cfg a hsk hnp' hbm hbs, hm]
                  simp only [hcl]
                  rw [if_pos hnpa]) hsk hrun).2 t ht'
            · rw [if_neg hnpa] at hrun
              have := hmemout st a _ (by
                rw [filterStep_clean_eq normalize dir st acc cfg a hsk hnp' hbm hbs, hm]
                simp only [hcl]
                rw [if_neg hnpa]) hsk hrun
              rcases List.mem_cons.mp ht with rfl | ht'
              · exact Or.inl this.1
              · exact this.2 t ht'
        · rw [hm] at hrun
          simp only [] at hrun
          have := hmemout ⟨false, true, shouldAddToQuoteIncludes a,
            shouldAddToAngleIncludes a⟩ a cfg (by
            rw [filterStep_clean_eq normalize dir st acc cfg a hsk hnp' hbm hbs, hm]) rfl hrun
          rcases List.mem_cons.mp ht with rfl | ht'
          · exact Or.inl this.1
          · exact this.2 t ht'

end Cquery

namespace Cquery

theorem runFilter_head_clean (normalize : String → String) (dir : String)
    (a : String) (l' : List String) (st : FilterState) (cfg : ProjectConfig)
    (r : FilterState × List String × ProjectConfig)
    (hsk : st.skipNext = false) (hnp : st.nextIsPath = false)
    (hbm : startsWithAny a kBlacklistMulti = false)
    (hbs : startsWithAny a kBlacklist = false)
    (hrun : runFilter normalize dir (a :: l') st [] cfg = some r) :
    ∃ t F', r.2.1 = t :: F' ∧ (t = a ∨ t.data.get? 0 = some '-') := by
  rw [runFilter] at hrun
  rw [filterStep_clean_eq normalize dir st [] cfg a hsk hnp hbm hbs] at hrun
  rcases hm : matchPathFlag kPathArgs a with _ | ⟨ft, b⟩
  · rw [hm] at hrun
    simp only [] at hrun
    obtain ⟨F, c0, _, hdec⟩ := runFilter_acc_decomp normalize dir l' st ([] ++ [a]) cfg r hrun
    exact ⟨a, F, by simpa using hdec, Or.inl rfl⟩
  · cases b
    · rw [hm] at hrun
      simp only [] at hrun
      cases hcl : cleanup normalize dir ⟨a.data.drop ft.data.length⟩ with
      | none => rw [hcl] at hrun; simp at hrun
      | some P =>
        rw [hcl] at hrun
        simp only [] at hrun
        by_cases hnpa : startsWithAny a kNormalizePathArgs = true
        · rw [if_pos hnpa] at hrun
          obtain ⟨F, c0, _, hdec⟩ := runFilter_acc_decomp normalize dir l' st ([] ++ [ft ++ P])
            _ r hrun
          refine ⟨ft ++ P, F, by simpa using hdec, Or.inr ?_⟩
          have hmem := matchPathFlag_mem a ft false kPathArgs hm
          obtain ⟨hft0, hftne⟩ := kPathArgs_front ft hmem
          rw [strData_append]
          cases hfd : ft.data with
          | nil => exact absurd hfd hftne
          | cons c cs =>
            rw [hfd] at hft0
            simp only [List.get?_cons_zero, Option.some.injEq] at hft0
            simp [hft0]
        · rw [if_neg hnpa] at hrun
          obtain ⟨F, c0, _, hdec⟩ := runFilter_acc_decomp normalize dir l' st ([] ++ [a])
            _ r hrun
          exact ⟨a, F, by simpa using hdec, Or.inl rfl⟩
    · rw [hm] at hrun
      simp only [] at hrun
      obtain ⟨F, c0, _, hdec⟩ := runFilter_acc_decomp normalize dir l'
        ⟨false, true, shouldAddToQuoteIncludes a, shouldAddToAngleIncludes a⟩ ([] ++ [a])
        cfg r hrun
      exact ⟨a, F, by simpa using hdec, Or.inl rfl⟩

theorem injTokens_passTok (args : List String) (dir file : String)
    (H6 : dir.data.getD 0 '\x00' = '/') :
    ∀ t ∈ injTokens args dir file, passTok t = true := by
  have hsub : ∀ t ∈ injTokens args dir file, t = dir ∨
      t ∈ ["-working-directory", "-xc", "-std=gnu11", "-xc++", "-std=c++14",
            "-xobjective-c++", "-xobjective-c"] := by
    intro t ht
    unfold injTokens at ht
    rcases SourceFileType_cases file with h | h | h | h | h <;>
      simp only [h] at ht <;> repeat' split at ht
    all_goals simp_all [show "-x" ++ "c" = "-xc" from rfl,
      show "-x" ++ "c++" = "-xc++" from rfl,
      show "-x" ++ "objective-c++" = "-xobjective-c++" from rfl,
      show "-x" ++ "objective-c" = "-xobjective-c" from rfl]
    all_goals tauto
  intro t ht
  rcases hsub t ht with rfl | hlit
  · exact passTok_of_front_slash t H6
  · fin_cases hlit <;> decide

end Cquery

namespace Cquery

theorem strStartsWith_append (p r : String) : strStartsWith (p ++ r) p = true := by
  unfold strStartsWith
  rw [strData_append, List.isPrefixOf_iff_prefix]
  exact ⟨r.data, rfl⟩

theorem resdir_sw (R : String) :
    strStartsWith ("-resource-dir=" ++ R) "-resource-dir" = true := by
  have h : ("-resource-dir=" ++ R) = "-resource-dir" ++ ("=" ++ R) := by
    apply str_eq_of_data
    rw [strData_append, strData_append, strData_append, ← List.append_assoc]
    rw [show ("-resource-dir=").data = ("-resource-dir").data ++ ("=").data from by decide]
  rw [h]
  exact strStartsWith_append _ _

theorem takeWhile_nil_of_head (p : String → Bool) (l : List String)
    (h : ∀ y rest, l = y :: rest → p y = false) : l.takeWhile p = [] := by
  cases l with
  | nil => rfl
  | cons y r =>
    rw [List.takeWhile_cons, if_neg (by simp [h y r rfl])]

theorem dropWhile_head_false (p : String → Bool) :
    ∀ (l : List String) (a : String) (r : List String),
      l.dropWhile p = a :: r → p a = false := by
  intro l
  induction l with
  | nil => intro a r h; simp at h
  | cons x t ih =>
    intro a r h
    by_cases hp : p x = true
    · rw [List.dropWhile_cons_of_pos hp] at h
      exact ih a r h
    · rw [List.dropWhile_cons_of_neg (by simpa using hp)] at h
      obtain ⟨rfl, -⟩ := List.cons.inj h
      simpa using hp

theorem injTokens_head (args : List String) (dir file : String) :
    injTokens args dir file = [] ∨
    ∃ h t, injTokens args dir file = h :: t ∧ h.data.get? 0 = some '-' := by
  unfold injTokens
  rcases SourceFileType_cases file with h | h | h | h | h <;> simp only [h] <;>
    repeat' split
  all_goals first
    | (left; rfl)
    | (right; exact ⟨_, _, rfl, by decide⟩)

theorem injTokens_nil (args : List String) (dir file : String)
    (hwd : anyStartsWith args "-working-directory" = true)
    (hx : SourceFileType file = none ∨ anyStartsWith args "-x" = true)
    (hstd : SourceFileType file = none ∨ anyStartsWith args "-std=" = true ∨
      SourceFileType file = some "objective-c++" ∨ SourceFileType file = some "objective-c") :
    injTokens args dir file = [] := by
  unfold injTokens
  rcases SourceFileType_cases file with h | h | h | h | h <;> simp only [h] <;> simp_all

theorem raw_token_survives (normalize : String → String) (dir fname : String)
    (args acc : List String) (cfg : ProjectConfig)
    (r : FilterState × List String × ProjectConfig)
    (hb : ∀ t ∈ args, startsWithAny t kBlacklistMulti = false ∧
      startsWithAny t kBlacklist = false)
    (hrun : runFilter normalize dir
      (args.drop (stripLen normalize fname args)) initFS acc cfg = some r)
    (w g : String) (hw : w ∈ args) (hsw : strStartsWith w g = true)
    (hg0 : g.data.get? 0 = some '-') (c : Char) (hg1 : g.data.get? 1 = some c)
    (hc : c ≠ '-') :
    w ∈ r.2.1 := by
  have hw0 : w.data.get? 0 = some '-' := get?_of_sw w g 0 '-' hsw hg0
  have hsc : stripCond normalize fname w = false := stripCond_false_of_dash normalize fname w hw0
  have hwl : w ∈ args.drop (stripLen normalize fname args) := by
    unfold stripLen
    rw [drop_stripLen]
    exact mem_dropWhile_of_neg _ args w hw hsc
  have hbl : ∀ t ∈ args.drop (stripLen normalize fname args),
      startsWithAny t kBlacklistMulti = false ∧ startsWithAny t kBlacklist = false :=
    fun t ht => hb t (List.mem_of_mem_drop ht)
  rcases runFilter_mem normalize dir _ initFS acc cfg r rfl hbl hrun w hwl with h | h
  · exact h
  · exfalso
    have hsw' : strStartsWith w "--sysroot=" = true := by
      rw [startsWithAny] at h
      simpa [kNormalizePathArgs] using h
    have h1 : w.data.get? 1 = some '-' := get?_of_sw w "--sysroot=" 1 '-' hsw' (by decide)
    have h2 : w.data.get? 1 = some c := get?_of_sw w g 1 c hsw hg1
    rw [h1] at h2
    exact hc (Option.some.inj h2).symm

end Cquery

namespace Cquery

/-- C6 (amended): re-running the Classifier on its own output args (same
working directory, same source file, the accumulator produced by the first
run) succeeds and returns exactly the same args — the duplicate-guarded
flags are not appended a second time — provided the accumulator's extra
flags are empty, no raw token matches a blacklist prefix, the path
normalizer is idempotent and returns slash-initial (absolute) paths, the
normalized default executable placeholder differs from the normalized
source file, and the working directory is absolute.  As literally stated
the claim is false: a non-empty extra-flags list is appended again by the
second run. -/
theorem classifier_idempotent (normalize : String → String) (cfg : ProjectConfig)
    (entry : CompileCommandsEntry) (e : Entry) (cfg' : ProjectConfig)
    (H1 : cfg.extra_flags = [])
    (H2 : ∀ t ∈ entry.args, startsWithAny t kBlacklistMulti = false ∧
      startsWithAny t kBlacklist = false)
    (H3 : ∀ p, (normalize p).data.getD 0 '\x00' = '/')
    (H4 : ∀ p, normalize (normalize p) = normalize p)
    (H5 : normalize "clang++" ≠ normalize entry.file)
    (H6 : entry.directory.data.getD 0 '\x00' = '/')
    (hrun : getCompilationEntry normalize cfg entry = some (e, cfg')) :
    ∃ r, getCompilationEntry normalize cfg'
        { directory := entry.directory, file := entry.file, args := e.args } = some r ∧
      r.1.args = e.args := by
  rw [getCompilationEntry_eq] at hrun
  cases hm1 : runFilter normalize entry.directory
      (entry.args.drop (stripLen normalize (normalize entry.file) entry.args)) initFS
      ([execOf normalize (normalize entry.file) entry.args] ++
        injTokens entry.args entry.directory entry.file) cfg with
  | none => rw [hm1] at hrun; simp at hrun
  | some trip =>
    obtain ⟨stF, accF, cfgF⟩ := trip
    rw [hm1] at hrun
    simp only [Option.some.injEq, Prod.mk.injEq] at hrun
    obtain ⟨hE, hC⟩ := hrun
    subst hC
    have hext : cfgF.extra_flags = [] := by
      have hpre := runFilter_preserves normalize entry.directory _ _ _ _ _ hm1
      rw [hpre.1, H1]
    obtain ⟨gs1, hA1, hgs1, hg1⟩ := appendUnlessPresent_spec accF "-resource-dir"
      ("-resource-dir=" ++ cfgF.resource_dir) (resdir_sw _)
    obtain ⟨gs2, hA2, hgs2, hg2⟩ := appendUnlessPresent_spec (accF ++ gs1)
      "-Wno-unknown-warning-option" "-Wno-unknown-warning-option" (strStartsWith_refl _)
    obtain ⟨gs3, hA3, hgs3, hg3⟩ := appendUnlessPresent_spec ((accF ++ gs1) ++ gs2)
      "-fparse-all-comments" "-fparse-all-comments" (strStartsWith_refl _)
    have hea : e.args = ((accF ++ gs1) ++ gs2) ++ gs3 := by
      rw [← hE]
      rw [hext]
      rw [List.append_nil, hA1, hA2, hA3]
    obtain ⟨F, c0, hrun0, haccF⟩ := runFilter_acc_decomp normalize entry.directory _ initFS _ cfg
      (stF, accF, cfgF) hm1
    have haccF2 : accF = ([execOf normalize (normalize entry.file) entry.args] ++
        injTokens entry.args entry.directory entry.file) ++ F := haccF
    have hrun02 : runFilter normalize entry.directory
        (entry.args.drop (stripLen normalize (normalize entry.file) entry.args)) initFS [] cfg =
        some (stF, F, c0) := hrun0
    have hbl : ∀ t ∈ entry.args.drop (stripLen normalize (normalize entry.file) entry.args),
        startsWithAny t kBlacklistMulti = false ∧ startsWithAny t kBlacklist = false :=
      fun t ht => H2 t (List.mem_of_mem_drop ht)
    obtain ⟨hstF, hstab⟩ := runFilter_stable normalize entry.directory H3 H4 _ initFS cfg c0
      stF F rfl hbl hrun02
    have hFhead : F = [] ∨ ∃ t0 F', F = t0 :: F' ∧
        stripCond normalize (normalize entry.file) t0 = false := by
      cases hl : entry.args.drop (stripLen normalize (normalize entry.file) entry.args) with
      | nil =>
        left
        rw [hl] at hrun02
        simp only [runFilter, Option.some.injEq, Prod.mk.injEq] at hrun02
        exact hrun02.2.1.symm
      | cons a l' =>
        right
        rw [hl] at hrun02
        obtain ⟨hbma, hbsa⟩ := hbl a (by rw [hl]; simp)
        obtain ⟨t0, F', hF, ht0⟩ := runFilter_head_clean normalize entry.directory a l' initFS cfg
          (stF, F, c0) rfl rfl hbma hbsa hrun02
        refine ⟨t0, F', hF, ?_⟩
        rcases ht0 with rfl | hd
        · have hdw : entry.args.dropWhile (stripCond normalize (normalize entry.file)) =
              t0 :: l' := by
            rw [← drop_stripLen]
            exact hl
          exact dropWhile_head_false _ entry.args t0 l' hdw
        · exact stripCond_false_of_dash normalize (normalize entry.file) t0 hd
    have hgsdash : ∀ y ∈ gs1 ++ (gs2 ++ gs3), y.data.get? 0 = some '-' := by
      intro y hy
      rcases List.mem_append.mp hy with h1 | h23
      · rw [hgs1 y h1]
        rw [get?_append_left_str "-resource-dir=" _ 0 (by decide)]
        decide
      · rcases List.mem_append.mp h23 with h2 | h3
        · rw [hgs2 y h2]; decide
        · rw [hgs3 y h3]; decide
    have hpfalse : ∀ y r', injTokens entry.args entry.directory entry.file ++
        (F ++ (gs1 ++ (gs2 ++ gs3))) = y :: r' →
        stripCond normalize (normalize entry.file) y = false := by
      intro y r' hy
      rcases injTokens_head entry.args entry.directory entry.file with hinj | ⟨ih, it, hic, ihd⟩
      · rw [hinj, List.nil_append] at hy
        rcases hFhead with hFnil | ⟨t0, F', hFc, ht0⟩
        · rw [hFnil, List.nil_append] at hy
          have hym : y ∈ gs1 ++ (gs2 ++ gs3) := by rw [hy]; simp
          exact stripCond_false_of_dash _ _ y (hgsdash y hym)
        · rw [hFc, List.cons_append] at hy
          obtain ⟨rfl, -⟩ := List.cons.inj hy
          exact ht0
      · rw [hic, List.cons_append] at hy
        obtain ⟨rfl, -⟩ := List.cons.inj hy
        exact stripCond_false_of_dash _ _ _ ihd
    have hexecT : stripCond normalize (normalize entry.file)
        (execOf normalize (normalize entry.file) entry.args) = true :=
      execOf_stripCond normalize (normalize entry.file) entry.args H5
    have htake2 : (execOf normalize (normalize entry.file) entry.args ::
        (injTokens entry.args entry.directory entry.file ++
          (F ++ (gs1 ++ (gs2 ++ gs3))))).takeWhile
        (stripCond normalize (normalize entry.file)) =
        [execOf normalize (normalize entry.file) entry.args] := by
      rw [List.takeWhile_cons, if_pos hexecT, takeWhile_nil_of_head _ _ hpfalse]
    have hea2 : e.args = execOf normalize (normalize entry.file) entry.args ::
        (injTokens entry.args entry.directory entry.file ++ (F ++ (gs1 ++ (gs2 ++ gs3)))) := by
      rw [hea, haccF2]
      simp [List.append_assoc]
    have hsurv : ∀ (w g : String), w ∈ entry.args → strStartsWith w g = true →
        g.data.get? 0 = some '-' → ∀ c : Char, g.data.get? 1 = some c → c ≠ '-' →
        w ∈ e.args := by
      intro w g hw hsw hg0 c hg1 hc
      have hmem : w ∈ accF := raw_token_survives normalize entry.directory (normalize entry.file)
        entry.args _ cfg (stF, accF, cfgF) H2 hm1 w g hw hsw hg0 c hg1 hc
      rw [hea]
      simp [hmem]
    have hinjm : ∀ w, w ∈ injTokens entry.args entry.directory entry.file → w ∈ e.args := by
      intro w hw
      rw [hea2]
      simp [hw]
    have hwd2 : anyStartsWith e.args "-working-directory" = true := by
      by_cases hwda : anyStartsWith entry.args "-working-directory" = true
      · rw [anyStartsWith, List.any_eq_true] at hwda
        obtain ⟨w, hwm, hww⟩ := hwda
        exact anyStartsWith_of_mem_sw _ w _ (hsurv w "-working-directory" hwm hww (by decide)
          'w' (by decide) (by decide)) hww
      · have hwm : ("-working-directory" : String) ∈
            injTokens entry.args entry.directory entry.file := by
          unfold injTokens
          rw [if_neg hwda]
          simp
        exact anyStartsWith_of_mem_sw _ _ _ (hinjm _ hwm) (strStartsWith_refl _)
    have hxcase : ∀ t : String, SourceFileType entry.file = some t →
        anyStartsWith e.args "-x" = true := by
      intro t hsf
      by_cases hxa : anyStartsWith entry.args "-x" = true
      · rw [anyStartsWith, List.any_eq_true] at hxa
        obtain ⟨w, hwm, hww⟩ := hxa
        exact anyStartsWith_of_mem_sw _ w _ (hsurv w "-x" hwm hww (by decide)
          'x' (by decide) (by decide)) hww
      · have hwm : ("-x" ++ t) ∈ injTokens entry.args entry.directory entry.file := by
          unfold injTokens
          simp only [hsf]
          rw [if_neg hxa]
          simp
        exact anyStartsWith_of_mem_sw _ _ _ (hinjm _ hwm) (strStartsWith_append _ _)
    have hx2 : SourceFileType entry.file = none ∨ anyStartsWith e.args "-x" = true := by
      cases hsf : SourceFileType entry.file with
      | none => exact Or.inl rfl
      | some t => exact Or.inr (hxcase t hsf)
    have hstdraw : anyStartsWith entry.args "-std=" = true →
        anyStartsWith e.args "-std=" = true := by
      intro hsa
      rw [anyStartsWith, List.any_eq_true] at hsa
      obtain ⟨w, hwm, hww⟩ := hsa
      exact anyStartsWith_of_mem_sw _ w _ (hsurv w "-std=" hwm hww (by decide)
        's' (by decide) (by decide)) hww
    have hstd2 : SourceFileType entry.file = none ∨ anyStartsWith e.args "-std=" = true ∨
        SourceFileType entry.file = some "objective-c++" ∨
        SourceFileType entry.file = some "objective-c" := by
      rcases SourceFileType_cases entry.file with hsf | hsf | hsf | hsf | hsf
      · exact Or.inl hsf
      · refine Or.inr (Or.inl ?_)
        by_cases hsa : anyStartsWith entry.args "-std=" = true
        · exact hstdraw hsa
        · have hwm : ("-std=gnu11" : String) ∈
              injTokens entry.args entry.directory entry.file := by
            unfold injTokens
            simp only [hsf]
            rw [if_neg hsa]
            simp
          exact anyStartsWith_of_mem_sw _ _ _ (hinjm _ hwm) (by decide)
      · refine Or.inr (Or.inl ?_)
        by_cases hsa : anyStartsWith entry.args "-std=" = true
        · exact hstdraw hsa
        · have hwm : ("-std=c++14" : String) ∈
              injTokens entry.args entry.directory entry.file := by
            unfold injTokens
            simp only [hsf]
            rw [if_neg hsa]
            simp
          exact anyStartsWith_of_mem_sw _ _ _ (hinjm _ hwm) (by decide)
      · exact Or.inr (Or.inr (Or.inl hsf))
      · exact Or.inr (Or.inr (Or.inr hsf))
    have hinj2 : injTokens e.args entry.directory entry.file = [] :=
      injTokens_nil e.args entry.directory entry.file hwd2 hx2 hstd2
    have hi2 : stripLen normalize (normalize entry.file) e.args = 1 := by
      unfold stripLen
      rw [hea2, htake2]
      rfl
    have hexec2 : execOf normalize (normalize entry.file) e.args =
        execOf normalize (normalize entry.file) entry.args := by
      unfold execOf
      rw [hea2, htake2]
      rfl
    have hpassGS : ∀ t ∈ gs1 ++ (gs2 ++ gs3), passTok t = true := by
      intro t ht
      rcases List.mem_append.mp ht with h1 | h23
      · rw [hgs1 t h1]
        exact resTok_passTok _
      · rcases List.mem_append.mp h23 with h2 | h3
        · rw [hgs2 t h2]; decide
        · rw [hgs3 t h3]; decide
    have hr1 : runFilter normalize entry.directory
        (injTokens entry.args entry.directory entry.file) initFS
        [execOf normalize (normalize entry.file) entry.args] cfgF =
        some (initFS, [execOf normalize (normalize entry.file) entry.args] ++
          injTokens entry.args entry.directory entry.file, cfgF) :=
      runFilter_pass_clean normalize entry.directory _ initFS _ cfgF rfl rfl
        (injTokens_passTok entry.args entry.directory entry.file H6)
    obtain ⟨c2, hr2⟩ := hstab cfgF
    have hr2' : runFilter normalize entry.directory F initFS
        ([execOf normalize (normalize entry.file) entry.args] ++
          injTokens entry.args entry.directory entry.file) cfgF =
        some (stF, ([execOf normalize (normalize entry.file) entry.args] ++
          injTokens entry.args entry.directory entry.file) ++ F, c2) := by
      rw [runFilter_acc, hr2]
      rfl
    obtain ⟨st3, c3, hr3⟩ := runFilter_pass_any normalize entry.directory
      (gs1 ++ (gs2 ++ gs3)) stF
      (([execOf normalize (normalize entry.file) entry.args] ++
        injTokens entry.args entry.directory entry.file) ++ F) c2 hstF hpassGS
    have hbig : runFilter normalize entry.directory
        (injTokens entry.args entry.directory entry.file ++ (F ++ (gs1 ++ (gs2 ++ gs3))))
        initFS [execOf normalize (normalize entry.file) entry.args] cfgF =
        some (st3, (([execOf normalize (normalize entry.file) entry.args] ++
          injTokens entry.args entry.directory entry.file) ++ F) ++
            (gs1 ++ (gs2 ++ gs3)), c3) := by
      rw [runFilter_append, hr1]
      show (runFilter normalize entry.directory (F ++ (gs1 ++ (gs2 ++ gs3))) initFS
        ([execOf normalize (normalize entry.file) entry.args] ++
          injTokens entry.args entry.directory entry.file) cfgF) = _
      rw [runFilter_append, hr2']
      show runFilter normalize entry.directory (gs1 ++ (gs2 ++ gs3)) stF
        (([execOf normalize (normalize entry.file) entry.args] ++
          injTokens entry.args entry.directory entry.file) ++ F) c2 = _
      exact hr3
    have hext3 : c3.extra_flags = [] := by
      have h1 := runFilter_preserves normalize entry.directory _ _ _ _ _ hr3
      have h2 := runFilter_preserves normalize entry.directory _ _ _ _ _ hr2
      rw [h1.1, h2.1, hext]
    have haccOut : (([execOf normalize (normalize entry.file) entry.args] ++
        injTokens entry.args entry.directory entry.file) ++ F) ++ (gs1 ++ (gs2 ++ gs3)) =
        ((accF ++ gs1) ++ gs2) ++ gs3 := by
      rw [haccF2]
      simp [List.append_assoc]
    have hga : anyStartsWith ((([execOf normalize (normalize entry.file) entry.args] ++
        injTokens entry.args entry.directory entry.file) ++ F) ++ (gs1 ++ (gs2 ++ gs3)))
        "-resource-dir" = true := by
      rw [haccOut]
      exact anyStartsWith_mono _ _ _ (anyStartsWith_mono _ _ _ hg1)
    have hgb : anyStartsWith ((([execOf normalize (normalize entry.file) entry.args] ++
        injTokens entry.args entry.directory entry.file) ++ F) ++ (gs1 ++ (gs2 ++ gs3)))
        "-Wno-unknown-warning-option" = true := by
      rw [haccOut]
      exact anyStartsWith_mono _ _ _ hg2
    have hgc : anyStartsWith ((([execOf normalize (normalize entry.file) entry.args] ++
        injTokens entry.args entry.directory entry.file) ++ F) ++ (gs1 ++ (gs2 ++ gs3)))
        "-fparse-all-comments" = true := by
      rw [haccOut]
      exact hg3
    have hfinal : appendUnlessPresent (appendUnlessPresent (appendUnlessPresent
        (((([execOf normalize (normalize entry.file) entry.args] ++
          injTokens entry.args entry.directory entry.file) ++ F) ++
            (gs1 ++ (gs2 ++ gs3))) ++ c3.extra_flags)
        "-resource-dir" ("-resource-dir=" ++ c3.resource_dir))
        "-Wno-unknown-warning-option" "-Wno-unknown-warning-option")
        "-fparse-all-comments" "-fparse-all-comments" = e.args := by
      rw [hext3, List.append_nil]
      rw [appendUnlessPresent, appendUnlessPresent, appendUnlessPresent,
        if_pos hga, if_pos hgb, if_pos hgc]
      rw [haccOut, ← hea]
    rw [getCompilationEntry_eq]
    dsimp only
    rw [hi2, hexec2, hinj2, List.append_nil]
    rw [hea2]
    simp only [List.drop_succ_cons, List.drop_zero]
    rw [hbig]
    dsimp only
    rw [hfinal]
    exact ⟨_, rfl, by rw [hea2]⟩

end Cquery

namespace Cquery

theorem slashNorm_abs (p : String) : (slashNorm p).data.getD 0 '\x00' = '/' := by
  unfold slashNorm
  by_cases h : p.data.getD 0 '\x00' = '/'
  · rw [if_pos h]
    exact h
  · rw [if_neg h]
    rw [show ("/" ++ p).data = '/' :: p.data from by rw [strData_append]; rfl]
    rfl

theorem slashNorm_idem (p : String) : slashNorm (slashNorm p) = slashNorm p := by
  have h := slashNorm_abs p
  rw [slashNorm]
  rw [if_pos h]

/-- C6 counterexample: re-running the Classifier on its own output is not
idempotent as claimed — with a non-empty `extra_flags` list (here
`["-DFOO"]`), the second run appends the extra flags a second time, so the
output args differ from the input args. -/
theorem classifier_not_idempotent :
    ∃ r1 r2,
      getCompilationEntry testNormalize
        { extra_flags := ["-DFOO"], resource_dir := "R" }
        { directory := "/d", file := "f.cc", args := ["cc"] } = some r1 ∧
      getCompilationEntry testNormalize r1.2
        { directory := "/d", file := "f.cc", args := r1.1.args } = some r2 ∧
      r2.1.args ≠ r1.1.args := by
  refine ⟨(⟨"&f.cc",
      ["cc", "-working-directory", "/d", "-xc++", "-std=c++14", "-DFOO",
        "-resource-dir=R", "-Wno-unknown-warning-option", "-fparse-all-comments"], false⟩,
      ⟨[], [], ["-DFOO"], "", "R"⟩),
    (⟨"&f.cc",
      ["cc", "-working-directory", "/d", "-xc++", "-std=c++14", "-DFOO",
        "-resource-dir=R", "-Wno-unknown-warning-option", "-fparse-all-comments", "-DFOO"],
      false⟩,
      ⟨[], [], ["-DFOO"], "", "R"⟩), ?_, ?_, ?_⟩ <;> decide

/-- Witness for C6 (amended): the idempotence theorem applied at the concrete
invocation `["cc", "-O2"]` on `f.cc` in `/d` under the slash-prefixing
normalizer — re-running the Classifier on the produced args returns them
unchanged. -/
theorem classifier_idempotent_witness :
    ∃ r, getCompilationEntry slashNorm {}
        { directory := "/d", file := "f.cc",
          args := ["cc", "-working-directory", "/d", "-xc++", "-std=c++14", "-O2",
            "-resource-dir=", "-Wno-unknown-warning-option", "-fparse-all-comments"] } =
        some r ∧
      r.1.args = ["cc", "-working-directory", "/d", "-xc++", "-std=c++14", "-O2",
        "-resource-dir=", "-Wno-unknown-warning-option", "-fparse-all-comments"] :=
  classifier_idempotent slashNorm {} { directory := "/d", file := "f.cc", args := ["cc", "-O2"] }
    { filename := "/f.cc",
      args := ["cc", "-working-directory", "/d", "-xc++", "-std=c++14", "-O2",
        "-resource-dir=", "-Wno-unknown-warning-option", "-fparse-all-comments"],
      is_inferred := false } {}
    rfl (by decide) slashNorm_abs slashNorm_idem (by decide) (by decide) (by decide)

end Cquery
